import Mathlib

/-!
Verification of the mcml identity-resolution pipeline (`src/mcml_cli`):
the shared text normalizer, the difflib-based similarity scorer, the query
matcher (`match.py`), and the scrape-side resolver merge and note scan
(`scrape.py`).  Python strings are modelled as `List Char` (ASCII model of
`str.lower` and of the `\s` whitespace class), Python floats as exact
rationals, and Python `dict`s (insertion ordered, value overwritten in
place) as association lists.
-/

set_option allowUnsafeReducibility true

attribute [semireducible] Rat.mul Rat.inv Rat.add Rat.sub

namespace Mcml

/-- A Python string, modelled as its list of characters. -/
abbrev Str := List Char

/-- The characters matched by the regex class `\s` (ASCII part), which is
also the set stripped by `str.strip()`. -/
def isWs (c : Char) : Bool :=
  c = ' ' || c = '\t' || c = '\n' || c = '\r' || c = '\x0b' || c = '\x0c'

/-- Python `str.lower()` on one character (ASCII model): code points 65-90
(`A`-`Z`) shift by 32. -/
def lowerChar (c : Char) : Char :=
  if 65 ≤ c.toNat ∧ c.toNat ≤ 90 then Char.ofNat (c.toNat + 32) else c

/-- Membership in the regex class `[a-z0-9]` (code points 97-122 and
48-57). -/
def isLowerAlnum (c : Char) : Bool :=
  (97 ≤ c.toNat && c.toNat ≤ 122) || (48 ≤ c.toNat && c.toNat ≤ 57)

/-- Python `str.strip()`: drop leading and trailing whitespace. -/
def stripWs (l : Str) : Str :=
  ((l.dropWhile isWs).reverse.dropWhile isWs).reverse

/-- The regex step `re.sub(r"[^a-z0-9\s]", " ", s)`: replace every character outside
`[a-z0-9]` and whitespace by a single space. -/
def subNonAlnum (l : Str) : Str :=
  l.map (fun c => if isLowerAlnum c || isWs c then c else ' ')

/-- Worker for `re.sub(r"\s+", " ", s)`: the flag records whether the
previous character was whitespace (so its run already produced a space). -/
def collapseAux : Bool → Str → Str
  | _, [] => []
  | prevWs, c :: rest =>
    if isWs c then
      if prevWs then collapseAux true rest else ' ' :: collapseAux true rest
    else c :: collapseAux false rest

/-- The regex step `re.sub(r"\s+", " ", s)`: replace each maximal whitespace run by one
space. -/
def collapseWs (l : Str) : Str := collapseAux false l

/-- Function `_norm` from `match.py` (`scrape.py` defines the identical function):
`s.strip().lower()`, then characters outside `[a-z0-9\s]` become spaces,
then whitespace runs collapse to one space and the ends are stripped. -/
def _norm (l : Str) : Str :=
  stripWs (collapseWs (subNonAlnum ((stripWs l).map lowerChar)))

/-! ### `stripWs` facts -/

theorem dropWhile_head_not (p : Char → Bool) (l : Str) :
    ∀ c, (l.dropWhile p).head? = some c → p c = false := by
  induction l with
  | nil => intro c h; simp [List.dropWhile] at h
  | cons a rest ih =>
    intro c h
    by_cases hp : p a
    · rw [List.dropWhile_cons_of_pos hp] at h; exact ih c h
    · rw [List.dropWhile_cons_of_neg hp] at h
      simp only [List.head?_cons, Option.some.injEq] at h
      subst h
      simpa using hp

theorem dropWhile_of_head_not (p : Char → Bool) (l : Str)
    (h : ∀ c, l.head? = some c → p c = false) : l.dropWhile p = l := by
  cases l with
  | nil => rfl
  | cons a rest =>
    have : p a = false := h a rfl
    simp [List.dropWhile_cons, this]

theorem dropWhile_getLast? (p : Char → Bool) (l : Str)
    (h : l.dropWhile p ≠ []) : (l.dropWhile p).getLast? = l.getLast? := by
  induction l with
  | nil => simp [List.dropWhile] at h
  | cons a rest ih =>
    by_cases hp : p a
    · rw [List.dropWhile_cons_of_pos hp] at h ⊢
      have hrest : rest ≠ [] := by
        intro hr; rw [hr] at h; simp [List.dropWhile] at h
      rw [ih h, List.getLast?_cons, List.getLast?_eq_getLast rest hrest]
      rfl
    · rw [List.dropWhile_cons_of_neg hp]

/-- The last character surviving `stripWs` is not whitespace. -/
theorem stripWs_getLast_not (l : Str) :
    ∀ c, (stripWs l).getLast? = some c → isWs c = false := by
  intro c h
  unfold stripWs at h
  rw [List.getLast?_reverse] at h
  exact dropWhile_head_not isWs _ c h

/-- The first character surviving `stripWs` is not whitespace. -/
theorem stripWs_head_not (l : Str) :
    ∀ c, (stripWs l).head? = some c → isWs c = false := by
  intro c h
  unfold stripWs at h
  rw [List.head?_reverse] at h
  set u := l.dropWhile isWs with hu
  have hne : u.reverse.dropWhile isWs ≠ [] := by
    intro hnil; rw [hnil] at h; simp at h
  rw [dropWhile_getLast? isWs u.reverse hne, List.getLast?_reverse] at h
  exact dropWhile_head_not isWs l c (hu ▸ h)

/-- Stripping is idempotent. -/
theorem stripWs_stripWs (l : Str) : stripWs (stripWs l) = stripWs l := by
  have h1 : (stripWs l).dropWhile isWs = stripWs l :=
    dropWhile_of_head_not isWs _ (stripWs_head_not l)
  have h2 : (stripWs l).reverse.dropWhile isWs = (stripWs l).reverse := by
    apply dropWhile_of_head_not
    intro c hc
    rw [List.head?_reverse] at hc
    exact stripWs_getLast_not l c hc
  show ((((stripWs l).dropWhile isWs).reverse.dropWhile isWs)).reverse = stripWs l
  rw [h1, h2, List.reverse_reverse]

/-- Characters of `stripWs l` come from `l`. -/
theorem mem_stripWs {c : Char} {l : Str} (h : c ∈ stripWs l) : c ∈ l := by
  unfold stripWs at h
  rw [List.mem_reverse] at h
  have h2 := (List.dropWhile_sublist (l := (l.dropWhile isWs).reverse) (p := isWs)).mem h
  rw [List.mem_reverse] at h2
  exact (List.dropWhile_sublist (l := l) (p := isWs)).mem h2

/-! ### `collapseWs` facts -/

/-- Adjacency relation: no two consecutive whitespace characters. -/
def NoWsPair (c d : Char) : Prop := ¬(isWs c = true ∧ isWs d = true)

theorem collapseAux_true_head_not (l : Str) :
    ∀ c, (collapseAux true l).head? = some c → isWs c = false := by
  induction l with
  | nil => intro c h; simp [collapseAux] at h
  | cons a rest ih =>
    intro c h
    by_cases ha : isWs a
    · rw [show collapseAux true (a :: rest) = collapseAux true rest by
        simp [collapseAux, ha]] at h
      exact ih c h
    · rw [show collapseAux true (a :: rest) = a :: collapseAux false rest by
        simp [collapseAux, ha]] at h
      simp only [List.head?_cons, Option.some.injEq] at h
      subst h; simpa using ha

theorem mem_collapseAux {c : Char} :
    ∀ (b : Bool) (l : Str), c ∈ collapseAux b l → c ∈ l ∨ c = ' ' := by
  intro b l
  induction l generalizing b with
  | nil => intro h; simp [collapseAux] at h
  | cons a rest ih =>
    intro h
    by_cases ha : isWs a
    · by_cases hb : b
      · subst hb
        rw [show collapseAux true (a :: rest) = collapseAux true rest by
          simp [collapseAux, ha]] at h
        rcases ih true h with h' | h'
        · exact Or.inl (List.mem_cons_of_mem a h')
        · exact Or.inr h'
      · rw [show b = false by simpa using hb] at h
        rw [show collapseAux false (a :: rest) = ' ' :: collapseAux true rest by
          simp [collapseAux, ha]] at h
        rcases List.mem_cons.mp h with h' | h'
        · exact Or.inr h'
        · rcases ih true h' with h'' | h''
          · exact Or.inl (List.mem_cons_of_mem a h'')
          · exact Or.inr h''
    · rw [show collapseAux b (a :: rest) = a :: collapseAux false rest by
        simp [collapseAux, ha]] at h
      rcases List.mem_cons.mp h with h' | h'
      · exact Or.inl (h' ▸ List.mem_cons_self a rest)
      · rcases ih false h' with h'' | h''
        · exact Or.inl (List.mem_cons_of_mem a h'')
        · exact Or.inr h''

theorem chain'_collapseAux : ∀ (b : Bool) (l : Str),
    List.Chain' NoWsPair (collapseAux b l) := by
  intro b l
  induction l generalizing b with
  | nil => simp [collapseAux]
  | cons a rest ih =>
    by_cases ha : isWs a
    · by_cases hb : b
      · subst hb
        rw [show collapseAux true (a :: rest) = collapseAux true rest by
          simp [collapseAux, ha]]
        exact ih true
      · rw [show b = false by simpa using hb]
        rw [show collapseAux false (a :: rest) = ' ' :: collapseAux true rest by
          simp [collapseAux, ha]]
        rw [List.chain'_cons']
        refine ⟨?_, ih true⟩
        intro d hd
        have := collapseAux_true_head_not rest d hd
        intro hcon
        rw [this] at hcon
        exact absurd hcon.2 (by simp)
    · rw [show collapseAux b (a :: rest) = a :: collapseAux false rest by
        simp [collapseAux, ha]]
      rw [List.chain'_cons']
      refine ⟨?_, ih false⟩
      intro d _
      intro hcon
      exact absurd hcon.1 (by simp [ha])

theorem collapseAux_true_of_head_not (l : Str)
    (h : ∀ c, l.head? = some c → isWs c = false) :
    collapseAux true l = collapseAux false l := by
  cases l with
  | nil => rfl
  | cons a rest =>
    have : isWs a = false := h a rfl
    simp [collapseAux, this]

/-- Collapsing is the identity on lists whose whitespace characters are
all plain spaces with no two adjacent. -/
theorem collapseAux_false_id : ∀ (l : Str),
    (∀ c ∈ l, isWs c = true → c = ' ') → List.Chain' NoWsPair l →
    collapseAux false l = l := by
  intro l
  induction l with
  | nil => intro _ _; rfl
  | cons a rest ih =>
    intro hmem hchain
    by_cases ha : isWs a
    · have haSp : a = ' ' := hmem a (List.mem_cons_self a rest) ha
      rw [show collapseAux false (a :: rest) = ' ' :: collapseAux true rest by
        simp [collapseAux, ha]]
      have hhd : ∀ c, rest.head? = some c → isWs c = false := by
        intro c hc
        have := (List.chain'_cons'.mp hchain).1 c hc
        by_contra hcc
        exact this ⟨ha, by simpa using hcc⟩
      rw [collapseAux_true_of_head_not rest hhd,
        ih (fun c hc => hmem c (List.mem_cons_of_mem a hc))
          (List.Chain'.tail hchain), haSp]
    · rw [show collapseAux false (a :: rest) = a :: collapseAux false rest by
        simp [collapseAux, ha]]
      rw [ih (fun c hc => hmem c (List.mem_cons_of_mem a hc))
        (List.Chain'.tail hchain)]

/-- Every whitespace character emitted by `collapseAux` is the plain space
it substitutes for a run. -/
theorem collapseAux_ws_space : ∀ (b : Bool) (l : Str),
    ∀ c ∈ collapseAux b l, isWs c = true → c = ' ' := by
  intro b l
  induction l generalizing b with
  | nil => intro c h; simp [collapseAux] at h
  | cons a rest ih =>
    intro c h hws
    by_cases ha : isWs a
    · by_cases hb : b
      · subst hb
        rw [show collapseAux true (a :: rest) = collapseAux true rest by
          simp [collapseAux, ha]] at h
        exact ih true c h hws
      · rw [show b = false by simpa using hb] at h
        rw [show collapseAux false (a :: rest) = ' ' :: collapseAux true rest by
          simp [collapseAux, ha]] at h
        rcases List.mem_cons.mp h with h' | h'
        · exact h'
        · exact ih true c h' hws
    · rw [show collapseAux b (a :: rest) = a :: collapseAux false rest by
        simp [collapseAux, ha]] at h
      rcases List.mem_cons.mp h with h' | h'
      · subst h'; simp [ha] at hws
      · exact ih false c h' hws

/-! ### `_norm` is idempotent (C8) -/

theorem mem_norm_ws_space {c : Char} {l : Str} (h : c ∈ _norm l)
    (hws : isWs c = true) : c = ' ' := by
  unfold _norm at h
  exact collapseAux_ws_space false _ c (mem_stripWs h) hws

theorem mem_norm_keep {c : Char} {l : Str} (h : c ∈ _norm l) :
    (isLowerAlnum c || isWs c) = true := by
  unfold _norm at h
  have h1 := mem_stripWs h
  rcases mem_collapseAux false _ h1 with h2 | h2
  · unfold subNonAlnum at h2
    rcases List.mem_map.mp h2 with ⟨d, _, hd⟩
    by_cases hk : isLowerAlnum d || isWs d
    · rw [if_pos hk] at hd; rw [← hd]; exact hk
    · rw [if_neg hk] at hd; rw [← hd]; decide
  · rw [h2]; decide

theorem lowerChar_id_of_keep {c : Char} (h : (isLowerAlnum c || isWs c) = true) :
    lowerChar c = c := by
  rcases Bool.or_eq_true_iff.mp h with h' | h'
  · unfold isLowerAlnum at h'
    unfold lowerChar
    rw [if_neg]
    rcases Bool.or_eq_true_iff.mp h' with h'' | h''
    · have := Bool.and_eq_true_iff.mp h''
      have h1 : 97 ≤ c.toNat := by exact_mod_cast Nat.le_of_ble_eq_true (by simpa using this.1)
      omega
    · have := Bool.and_eq_true_iff.mp h''
      have h2 : c.toNat ≤ 57 := by exact_mod_cast Nat.le_of_ble_eq_true (by simpa using this.2)
      omega
  · unfold isWs at h'
    simp only [Bool.or_eq_true, decide_eq_true_eq] at h'
    rcases h' with ((((h' | h') | h') | h') | h') | h' <;> subst h' <;> decide

theorem chain'_norm (l : Str) : List.Chain' NoWsPair (_norm l) := by
  unfold _norm stripWs
  have h0 : List.Chain' NoWsPair (collapseWs (subNonAlnum ((stripWs l).map lowerChar))) :=
    chain'_collapseAux false _
  have symmNo : ∀ (y : Str), List.Chain' NoWsPair y.reverse ↔ List.Chain' NoWsPair y := by
    intro y
    rw [List.chain'_reverse]
    constructor
    · exact fun h => h.imp (fun a b hab => fun hc => hab ⟨hc.2, hc.1⟩)
    · exact fun h => h.imp (fun a b hab => fun hc => hab ⟨hc.2, hc.1⟩)
  rw [symmNo]
  apply List.Chain'.suffix _ (List.dropWhile_suffix isWs)
  rw [symmNo]
  exact List.Chain'.suffix h0 (List.dropWhile_suffix isWs)

/-- C8: `_norm` is a total, pure function on strings and is idempotent:
normalizing twice yields the same result as normalizing once (the Lean
embedding is total by construction, matching the spec's "no error
conditions"). -/
theorem norm_idempotent (s : Str) : _norm (_norm s) = _norm s := by
  conv_lhs => rw [_norm]
  rw [show stripWs (_norm s) = _norm s from stripWs_stripWs _]
  rw [show (_norm s).map lowerChar = _norm s from
    List.map_congr_left (fun c hc => lowerChar_id_of_keep (mem_norm_keep hc)) |>.trans
      (List.map_id _)]
  rw [show subNonAlnum (_norm s) = _norm s by
    unfold subNonAlnum
    exact (List.map_congr_left (fun c hc => if_pos (mem_norm_keep hc))).trans
      (List.map_id _)]
  rw [show collapseWs (_norm s) = _norm s from
    collapseAux_false_id _ (fun c hc => mem_norm_ws_space hc) (chain'_norm s)]
  exact stripWs_stripWs _

/-! ### `difflib.SequenceMatcher` (as called by `similarity`: `isjunk=None`,
`autojunk=True`).  With `isjunk=None` the junk set `bjunk` is empty, so
`isbjunk` is constantly false: the two junk-extension loops of
`find_longest_match` never run and are omitted, and the two non-junk
extension loops keep only their bound and character-equality guards. -/

/-- The ascending list of positions of `c` in `b` (the entry `b2j[c]`
before autojunk). -/
def positions (b : Str) (c : Char) : List Nat :=
  (List.range b.length).filter (fun j => b.getD j ' ' == c)

/-- Autojunk: when `len(b) >= 200`, characters occurring more than
`len(b) // 100 + 1` times are "popular" and deleted from `b2j`. -/
def isPopular (b : Str) (c : Char) : Bool :=
  decide (200 ≤ b.length) && decide (b.length / 100 + 1 < b.count c)

/-- Map `self.b2j` after `__chain_b`: positions of each character, with
popular characters removed. -/
def b2j (b : Str) (c : Char) : List Nat :=
  if isPopular b c then [] else positions b c

/-- One row `i` of the `find_longest_match` dynamic program: walk the
column list `js` (positions of `a[i]` within `[blo, bhi)`), reading chain
lengths from the previous row's map `j2lenOld` and writing this row's map;
the best block is replaced only on a strictly longer chain. -/
def flmRow (j2lenOld : Nat → Nat) (i : Nat) :
    List Nat → (Nat × Nat × Nat) → (Nat → Nat) → (Nat × Nat × Nat) × (Nat → Nat)
  | [], st, nj => (st, nj)
  | j :: rest, st, nj =>
    let k := (if j = 0 then 0 else j2lenOld (j - 1)) + 1
    let nj' := fun j' => if j' = j then k else nj j'
    let st' := if st.2.2 < k then (i + 1 - k, j + 1 - k, k) else st
    flmRow j2lenOld i rest st' nj'

/-- The outer loop of the dynamic program, over the row indices
`[alo, ahi)`; each row starts from a fresh (empty) map. -/
def flmRows (a : Str) (b2jf : Char → List Nat) (blo bhi : Nat) :
    List Nat → (Nat × Nat × Nat) → (Nat → Nat) → (Nat × Nat × Nat)
  | [], st, _ => st
  | i :: is, st, j2len =>
    let js := (b2jf (a.getD i ' ')).filter
      (fun j => decide (blo ≤ j) && decide (j < bhi))
    let p := flmRow j2len i js st (fun _ => 0)
    flmRows a b2jf blo bhi is p.1 p.2

/-- The left extension loop (`while besti > alo and bestj > blo and
a[besti-1] == b[bestj-1]`).  Each pass decreases `besti` by one while the
guard keeps `besti > alo`, so running it with `fuel = besti` is exactly
the unbounded loop. -/
def extLeft (a b : Str) (alo blo : Nat) :
    Nat → Nat → Nat → Nat → Nat × Nat × Nat
  | 0, besti, bestj, bestsize => (besti, bestj, bestsize)
  | fuel + 1, besti, bestj, bestsize =>
    if alo < besti ∧ blo < bestj ∧ a.getD (besti - 1) ' ' = b.getD (bestj - 1) ' '
    then extLeft a b alo blo fuel (besti - 1) (bestj - 1) (bestsize + 1)
    else (besti, bestj, bestsize)

/-- The right extension loop (`while besti+bestsize < ahi and
bestj+bestsize < bhi and a[besti+bestsize] == b[bestj+bestsize]`).  Each
pass increases `bestsize` while the guard keeps `besti + bestsize < ahi`,
so `fuel = ahi` is exactly the unbounded loop. -/
def extRight (a b : Str) (ahi bhi : Nat) (besti bestj : Nat) :
    Nat → Nat → Nat × Nat × Nat
  | 0, bestsize => (besti, bestj, bestsize)
  | fuel + 1, bestsize =>
    if besti + bestsize < ahi ∧ bestj + bestsize < bhi ∧
        a.getD (besti + bestsize) ' ' = b.getD (bestj + bestsize) ' '
    then extRight a b ahi bhi besti bestj fuel (bestsize + 1)
    else (besti, bestj, bestsize)

/-- Method `SequenceMatcher.find_longest_match(alo, ahi, blo, bhi)`. -/
def find_longest_match (a b : Str) (b2jf : Char → List Nat)
    (alo ahi blo bhi : Nat) : Nat × Nat × Nat :=
  let st := flmRows a b2jf blo bhi (List.range' alo (ahi - alo))
    (alo, blo, 0) (fun _ => 0)
  let st1 := extLeft a b alo blo st.1 st.1 st.2.1 st.2.2
  extRight a b ahi bhi st1.1 st1.2.1 ahi st1.2.2

/-- The total size of the blocks produced by `get_matching_blocks`'s
divide-and-conquer (the queue order and the final sort/merge of adjacent
blocks do not change the sum).  Each sub-range is strictly shorter in `a`
than its parent, so `fuel = ahi - alo` makes this exactly the Python
recursion. -/
def matchesSum (a b : Str) (b2jf : Char → List Nat) :
    Nat → Nat → Nat → Nat → Nat → Nat
  | 0, _, _, _, _ => 0
  | fuel + 1, alo, ahi, blo, bhi =>
    let r := find_longest_match a b b2jf alo ahi blo bhi
    if r.2.2 = 0 then 0
    else r.2.2 +
      (if alo < r.1 ∧ blo < r.2.1
       then matchesSum a b b2jf fuel alo r.1 blo r.2.1 else 0) +
      (if r.1 + r.2.2 < ahi ∧ r.2.1 + r.2.2 < bhi
       then matchesSum a b b2jf fuel (r.1 + r.2.2) ahi (r.2.1 + r.2.2) bhi
       else 0)

/-- Method `SequenceMatcher.ratio()`: `2*M / (len(a)+len(b))` via
`_calculate_ratio` (which returns `1.0` when both strings are empty). -/
def ratioOf (a b : Str) : ℚ :=
  if a.length + b.length = 0 then 1
  else (2 * (matchesSum a b (b2j b) a.length 0 a.length 0 b.length) : ℚ) /
    (a.length + b.length)

/-- Function `similarity` from `match.py`: normalize both arguments, return `0.0`
if either normalization is empty, else the `SequenceMatcher` ratio of the
normalized strings. -/
def similarity (a b : Str) : ℚ :=
  let a_n := _norm a
  let b_n := _norm b
  if a_n = [] ∨ b_n = [] then 0
  else ratioOf a_n b_n

/-! ### The query matcher (`match.py`) -/

/-- A stored-record-shaped mapping as the matcher receives it: `r.get(k)`
returns `None` for an absent key, modelled by `Option` fields (`none` is
both "key absent" and "value None"). -/
structure Row where
  full_name : Option Str := none
  first_name : Option Str := none
  last_name : Option Str := none
  role : Option Str := none
  note : Option Str := none
  mcml_url : Option Str := none
  source_page : Option Str := none
deriving DecidableEq, Repr

/-- Python `r.get(k) or ""`: `None` and `""` both give `""`. -/
def orEmpty (x : Option Str) : Str := x.getD []

/-- The `Match` dataclass of `match.py`. -/
structure Match where
  score : ℚ
  full_name : Str
  role : Str
  note : Str
  mcml_url : Str
  source_page : Str
deriving DecidableEq, Repr

/-- Python `str.split()` with no separator: split on whitespace runs, dropping
empty pieces.  The accumulator holds the current word reversed. -/
def pySplitAux : Str → Str → List Str
  | [], acc => if acc = [] then [] else [acc.reverse]
  | c :: rest, acc =>
    if isWs c then
      if acc = [] then pySplitAux rest []
      else acc.reverse :: pySplitAux rest []
    else pySplitAux rest (c :: acc)

/-- Python `s.split()`. -/
def pySplit (l : Str) : List Str := pySplitAux l []

/-- The per-row scoring of the `find_best_matches` loop (`match.py` lines
61-87), given the preprocessed stripped query and the derived
`first_query` / `last_query`. -/
def rowScore (query first_query last_query : Str) (r : Row) : ℚ :=
  let name := orEmpty r.full_name
  let full_name_score := if query ≠ [] then similarity query name else 0
  let first_score :=
    if first_query ≠ [] then similarity first_query (orEmpty r.first_name) else 0
  let last_score :=
    if last_query ≠ [] then similarity last_query (orEmpty r.last_name) else 0
  let weighted := (if first_query ≠ [] then first_score * (4/10) else 0) +
    (if last_query ≠ [] then last_score * (6/10) else 0)
  let weight_total := (if first_query ≠ [] then (4/10 : ℚ) else 0) +
    (if last_query ≠ [] then (6/10 : ℚ) else 0)
  let combined_score := if weight_total ≠ 0 then weighted / weight_total else 0
  let n_last := _norm (orEmpty r.last_name)
  let n_first := _norm (orEmpty r.first_name)
  let boost :=
    (if last_query ≠ [] ∧ n_last ≠ [] ∧ _norm last_query = n_last
      then (15/100 : ℚ) else 0) +
    (if first_query ≠ [] ∧ n_first ≠ [] ∧ _norm first_query = n_first
      then (5/100 : ℚ) else 0)
  min (max (max (max full_name_score first_score) last_score) combined_score
    + boost) 1

/-- The `Match` built for a qualifying row. -/
def mkMatch (score : ℚ) (r : Row) : Match :=
  { score := score
    full_name := orEmpty r.full_name
    role := orEmpty r.role
    note := orEmpty r.note
    mcml_url := orEmpty r.mcml_url
    source_page := orEmpty r.source_page }

/-- Stable insertion for the descending sort: `x` is placed before the
first element whose score is `≤ x.score`.  In `sortDesc` the inserted
element always precedes the already-sorted elements in the input, so on
equal scores it must stay in front of them, which is what Python's stable
`list.sort(key=..., reverse=True)` does. -/
def insertDesc (x : Match) : List Match → List Match
  | [] => [x]
  | y :: ys => if y.score ≤ x.score then x :: y :: ys else y :: insertDesc x ys

/-- Python `matches.sort(key=lambda m: m.score, reverse=True)`: a stable
descending sort by score. -/
def sortDesc : List Match → List Match
  | [] => []
  | x :: xs => insertDesc x (sortDesc xs)

/-- The stripped query `(query or "").strip()` (`match.py` line 43). -/
def strippedQuery (query : Option Str) : Str := stripWs (orEmpty query)

/-- The tokens `_norm(query).split()` (line 44). -/
def queryTokens (query : Option Str) : List Str :=
  pySplit (_norm (strippedQuery query))

/-- The effective first token (line 46): the explicit `first` if truthy,
else the first query token, else empty. -/
def firstQuery (query first : Option Str) : Str :=
  match first with
  | some f => if f ≠ [] then f else (queryTokens query).headD []
  | none => (queryTokens query).headD []

/-- The effective last token (lines 47-54): the explicit `last` if
truthy; else the last token when there are at least two, else the single
token, else empty. -/
def lastQuery (query last : Option Str) : Str :=
  let fb : Str :=
    if 2 ≤ (queryTokens query).length then (queryTokens query).getLastD []
    else (queryTokens query).headD []
  match last with
  | some l => if l ≠ [] then l else fb
  | none => fb

/-- The qualifying matches of the scoring loop (lines 60-99), in row
order: one `Match` per row whose score reaches the threshold. -/
def qualifying (query : Option Str) (rows : List Row)
    (first last : Option Str) (threshold : ℚ) : List Match :=
  rows.filterMap (fun r =>
    if threshold ≤ rowScore (strippedQuery query) (firstQuery query first)
        (lastQuery query last) r
    then some (mkMatch (rowScore (strippedQuery query) (firstQuery query first)
      (lastQuery query last) r) r)
    else none)

/-- Function `find_best_matches` from `match.py`.  `query`, `first`,
`last` are `str | None`; the early return fires when none of the stripped
query and the two effective tokens is non-empty. -/
def find_best_matches (query : Option Str) (rows : List Row)
    (first last : Option Str) (limit : Nat) (threshold : ℚ) : List Match :=
  if strippedQuery query = [] ∧ firstQuery query first = [] ∧
      lastQuery query last = [] then []
  else (sortDesc (qualifying query rows first last threshold)).take limit

/-! ### `scrape.py`: Person records, richness score, resolver merge -/

/-- The site root `BASE = "https://mcml.ai"`. -/
def BASE : Str := "https://mcml.ai".data

/-- The `Person` dataclass of `db.py`, as produced by `scrape_all`. -/
structure Person where
  full_name : Str
  first_name : Str := []
  last_name : Str := []
  role : Str := []
  note : Str := []
  mcml_url : Str := []
  source_page : Str := []
deriving DecidableEq, Repr

/-- Python `str.lower()` (ASCII model). -/
def lowerStr (l : Str) : Str := l.map lowerChar

/-- Function `_person_score` from `scrape.py`: +1 for a profile url, +1
more if it is internal to `BASE`, +1 for a note, +1 for a role other than
(case-insensitively) `"Member"`. -/
def _person_score (p : Person) : Nat :=
  (if p.mcml_url ≠ [] then
    1 + (if BASE.isPrefixOf p.mcml_url then 1 else 0) else 0) +
  (if p.note ≠ [] then 1 else 0) +
  (if p.role ≠ [] ∧ lowerStr p.role ≠ "member".data then 1 else 0)

/-- Insertion-ordered mapping update (Python `dict` assignment): an
existing key keeps its position and gets the new value, a new key is
appended. -/
def dictInsert {κ : Type} [DecidableEq κ] (d : List (κ × Person)) (k : κ)
    (v : Person) : List (κ × Person) :=
  if k ∈ d.map Prod.fst then
    d.map (fun kv => if kv.1 = k then (k, v) else kv)
  else d ++ [(k, v)]

/-- First value stored under key `k` (Python `dict` lookup; the key
uniqueness invariant makes it the only one). -/
def lookupKey {κ : Type} [DecidableEq κ] : List (κ × Person) → κ → Option Person
  | [], _ => none
  | kv :: rest, k => if kv.1 = k then some kv.2 else lookupKey rest k

/-- The pass-1 grouping key of `scrape_all` (line 312):
`(p.full_name.lower(), (p.mcml_url or "").lower(), p.role.lower())` —
plain lowercasing, not `_norm`. -/
def exactKey (p : Person) : Str × Str × Str :=
  (lowerStr p.full_name, lowerStr p.mcml_url, lowerStr p.role)

/-- The pass-1 key as claim C4 states it: the `_norm` normalization of
each component. -/
def normKey (p : Person) : Str × Str × Str :=
  (_norm p.full_name, _norm p.mcml_url, _norm p.role)

/-- Pass 1 of `scrape_all`'s cross-page de-duplication (lines 310-313,
the `by_exact` dict): `by_exact[key] = p` for each person in order. -/
def by_exact (ps : List Person) : List ((Str × Str × Str) × Person) :=
  ps.foldl (fun d p => dictInsert d (exactKey p) p) []

/-- Pass-1 survivors, `by_exact.values()`. -/
def pass1 (ps : List Person) : List Person := (by_exact ps).map Prod.snd

/-- The pass-2 grouping key (line 318): the normalized full name. -/
def nameKey (p : Person) : Str := _norm p.full_name

/-- One step of pass 2 (lines 317-325): a new name key is appended; an
existing entry is replaced only when the newcomer's `_person_score` is
strictly higher. -/
def by_nameStep (d : List (Str × Person)) (p : Person) : List (Str × Person) :=
  match lookupKey d (nameKey p) with
  | none => d ++ [(nameKey p, p)]
  | some existing =>
    if _person_score existing < _person_score p then
      d.map (fun kv' => if kv'.1 = nameKey p then (nameKey p, p) else kv')
    else d

/-- Pass 2 (the `by_name` dict) over the pass-1 survivors. -/
def by_name (ps : List Person) : List (Str × Person) := ps.foldl by_nameStep []

/-- The merge stage of `scrape_all` (lines 309-327):
`list(by_name.values())` after both passes. -/
def resolveMerge (ps : List Person) : List Person :=
  (by_name (pass1 ps)).map Prod.snd

/-! ### `scrape.py`: the note scan of `_extract_candidates_from_page` -/

/-- Function `_clean_ws` from `scrape.py`:
`re.sub(r"\s+", " ", (text or "").strip())`. -/
def _clean_ws (l : Str) : Str := collapseWs (stripWs l)

/-- Function `_abs_url` from `scrape.py`. -/
def _abs_url (url : Str) : Str :=
  if url = [] then []
  else if ("http://".data).isPrefixOf url ∨ ("https://".data).isPrefixOf url
    then url
  else if url.head? = some '/' then BASE ++ url
  else BASE ++ '/' :: url

/-- A hyperlink as the note scan sees it: rendered text and the `href`
attribute (`a.get("href") or ""` makes an absent one the empty string). -/
structure Anchor where
  text : Str
  href : Str
deriving DecidableEq, Repr

/-- The affiliation-marker test (line 260): the cleaned link text contains
the arrow glyph or starts with the literal `"Group"`. -/
def isGroupMarker (txt : Str) : Bool :=
  txt.contains '→' || ("Group".data).isPrefixOf txt

/-- The note text, cleaned (line 261): `txt.replace("→", "").strip()`. -/
def cleanGroupText (txt : Str) : Str :=
  stripWs (txt.filter (fun c => c ≠ '→'))

/-- The url preference of lines 245-253: the first link internal to
`BASE`, else the first external link, else empty. -/
def pickUrl (block_links : List Str) : Str :=
  let internal := block_links.filter (fun u => BASE.isPrefixOf u)
  let external := block_links.filter (fun u => !(BASE.isPrefixOf u))
  match internal.head? with
  | some u => u
  | none => external.headD []

/-- The note scan loop over `el.find_all_next("a", limit=25)` (lines
255-265): at most the first 25 following hyperlinks are examined; the
first marker link yields the cleaned note and its href and stops the
scan. -/
def noteScanAux : Nat → List Anchor → Option (Str × Str)
  | 0, _ => none
  | _, [] => none
  | n + 1, a :: rest =>
    let txt := _clean_ws a.text
    if isGroupMarker txt then some (cleanGroupText txt, a.href)
    else noteScanAux n rest

/-- The note scan as coded: bounded to the first 25 hyperlinks. -/
def noteScan (anchors : List Anchor) : Option (Str × Str) :=
  noteScanAux 25 anchors

/-- The note scan as claim C6 states it: no bound on the number of
hyperlinks examined. -/
def noteScanUnbounded : List Anchor → Option (Str × Str)
  | [] => none
  | a :: rest =>
    let txt := _clean_ws a.text
    if isGroupMarker txt then some (cleanGroupText txt, a.href)
    else noteScanUnbounded rest

/-- The combined note / profile-url outcome for one candidate (lines
245-268): the picked url, overridden by the marker link's target when the
bounded scan finds one with a non-empty href. -/
def noteAndUrl (block_links : List Str) (anchors : List Anchor) : Str × Str :=
  let mcml0 := pickUrl block_links
  match noteScan anchors with
  | some g => (g.1, if g.2 ≠ [] then _abs_url g.2 else mcml0)
  | none => ([], mcml0)

/-- The note / profile-url outcome under claim C6's unbounded scan. -/
def noteAndUrlClaim (block_links : List Str) (anchors : List Anchor) :
    Str × Str :=
  let mcml0 := pickUrl block_links
  match noteScanUnbounded anchors with
  | some g => (g.1, if g.2 ≠ [] then _abs_url g.2 else mcml0)
  | none => ([], mcml0)

/-! ### Bounds for `find_longest_match` and `ratioOf` -/

/-- Range bounds carried by the best-block state of
`find_longest_match`. -/
def StBound (alo ahi blo bhi : Nat) (st : Nat × Nat × Nat) : Prop :=
  alo ≤ st.1 ∧ st.1 + st.2.2 ≤ ahi ∧ blo ≤ st.2.1 ∧ st.2.1 + st.2.2 ≤ bhi

/-- Bound on a row map of the dynamic program: every non-zero chain
length is at most `bound` (the number of rows processed) and fits inside
`[blo, bhi)` on the `b` side. -/
def MapBound (blo bhi bound : Nat) (m : Nat → Nat) : Prop :=
  ∀ j, m j ≠ 0 → m j ≤ bound ∧ m j + blo ≤ j + 1 ∧ j < bhi

theorem flmRow_bound (j2lenOld : Nat → Nat) (i alo ahi blo bhi : Nat)
    (hOld : MapBound blo bhi (i - alo) j2lenOld) (hi1 : alo ≤ i)
    (hi2 : i < ahi) :
    ∀ (js : List Nat) (st : Nat × Nat × Nat) (nj : Nat → Nat),
      (∀ j ∈ js, blo ≤ j ∧ j < bhi) → StBound alo ahi blo bhi st →
      MapBound blo bhi (i + 1 - alo) nj →
      StBound alo ahi blo bhi (flmRow j2lenOld i js st nj).1 ∧
      MapBound blo bhi (i + 1 - alo) (flmRow j2lenOld i js st nj).2 := by
  intro js
  induction js with
  | nil => intro st nj _ hst hnj; exact ⟨hst, hnj⟩
  | cons j rest ih =>
    intro st nj hjs hst hnj
    have hj : blo ≤ j ∧ j < bhi := hjs j (List.mem_cons_self j rest)
    have hk : ((if j = 0 then 0 else j2lenOld (j - 1)) + 1) ≤ i + 1 - alo ∧
        ((if j = 0 then 0 else j2lenOld (j - 1)) + 1) + blo ≤ j + 1 := by
      by_cases h0 : j = 0
      · subst h0
        rw [if_pos rfl]
        omega
      · rw [if_neg h0]
        by_cases hz : j2lenOld (j - 1) = 0
        · rw [hz]; omega
        · have := hOld (j - 1) hz
          omega
    show StBound alo ahi blo bhi (flmRow j2lenOld i (j :: rest) st nj).1 ∧ _
    rw [show flmRow j2lenOld i (j :: rest) st nj =
      flmRow j2lenOld i rest
        (if st.2.2 < (if j = 0 then 0 else j2lenOld (j - 1)) + 1
          then (i + 1 - ((if j = 0 then 0 else j2lenOld (j - 1)) + 1),
                j + 1 - ((if j = 0 then 0 else j2lenOld (j - 1)) + 1),
                (if j = 0 then 0 else j2lenOld (j - 1)) + 1)
          else st)
        (fun j' => if j' = j then (if j = 0 then 0 else j2lenOld (j - 1)) + 1
          else nj j') from rfl]
    apply ih
    · exact fun j' hj' => hjs j' (List.mem_cons_of_mem j hj')
    · set k := (if j = 0 then 0 else j2lenOld (j - 1)) + 1 with hkdef
      by_cases hlt : st.2.2 < k
      · rw [if_pos hlt]
        unfold StBound
        simp only
        omega
      · rw [if_neg hlt]; exact hst
    · intro j' hj'
      beta_reduce at hj' ⊢
      by_cases he : j' = j
      · subst he
        rw [if_pos rfl] at hj' ⊢
        exact ⟨hk.1, hk.2, hj.2⟩
      · rw [if_neg he] at hj' ⊢
        exact hnj j' hj'

theorem flmRows_bound (a : Str) (b2jf : Char → List Nat)
    (alo ahi blo bhi : Nat) :
    ∀ (n s : Nat), alo ≤ s → s + n ≤ ahi →
    ∀ (st : Nat × Nat × Nat) (m : Nat → Nat),
      StBound alo ahi blo bhi st → MapBound blo bhi (s - alo) m →
      StBound alo ahi blo bhi
        (flmRows a b2jf blo bhi (List.range' s n) st m) := by
  intro n
  induction n with
  | zero => intro s _ _ st m hst _; exact hst
  | succ n ih =>
    intro s hs1 hs2 st m hst hm
    rw [List.range'_succ]
    show StBound alo ahi blo bhi (flmRows a b2jf blo bhi (s :: List.range' (s+1) n) st m)
    rw [show flmRows a b2jf blo bhi (s :: List.range' (s+1) n) st m =
      flmRows a b2jf blo bhi (List.range' (s+1) n)
        (flmRow m s ((b2jf (a.getD s ' ')).filter
          (fun j => decide (blo ≤ j) && decide (j < bhi))) st (fun _ => 0)).1
        (flmRow m s ((b2jf (a.getD s ' ')).filter
          (fun j => decide (blo ≤ j) && decide (j < bhi))) st (fun _ => 0)).2
      from rfl]
    have hrow := flmRow_bound m s alo ahi blo bhi hm hs1 (by omega)
      ((b2jf (a.getD s ' ')).filter
        (fun j => decide (blo ≤ j) && decide (j < bhi))) st (fun _ => 0)
      (by
        intro j hj
        have := List.of_mem_filter hj
        simp only [Bool.and_eq_true, decide_eq_true_eq] at this
        exact this)
      hst (by intro j hj; simp at hj)
    exact ih (s + 1) (by omega) (by omega) _ _ hrow.1
      (by
        have := hrow.2
        rwa [show s + 1 - alo = (s + 1) - alo from rfl] at this)

theorem extLeft_bound (a b : Str) (alo blo ahi bhi : Nat) :
    ∀ (fuel besti bestj bestsize : Nat),
      StBound alo ahi blo bhi (besti, bestj, bestsize) →
      StBound alo ahi blo bhi (extLeft a b alo blo fuel besti bestj bestsize) := by
  intro fuel
  induction fuel with
  | zero => intro besti bestj bestsize h; exact h
  | succ fuel ih =>
    intro besti bestj bestsize h
    show StBound alo ahi blo bhi
      (if alo < besti ∧ blo < bestj ∧
          a.getD (besti - 1) ' ' = b.getD (bestj - 1) ' '
        then extLeft a b alo blo fuel (besti - 1) (bestj - 1) (bestsize + 1)
        else (besti, bestj, bestsize))
    by_cases hc : alo < besti ∧ blo < bestj ∧
        a.getD (besti - 1) ' ' = b.getD (bestj - 1) ' '
    · rw [if_pos hc]
      apply ih
      unfold StBound at h ⊢
      simp only at h ⊢
      omega
    · rw [if_neg hc]; exact h

theorem extRight_bound (a b : Str) (ahi bhi besti bestj : Nat) :
    ∀ (fuel bestsize : Nat) (alo blo : Nat),
      StBound alo ahi blo bhi (besti, bestj, bestsize) →
      StBound alo ahi blo bhi (extRight a b ahi bhi besti bestj fuel bestsize) := by
  intro fuel
  induction fuel with
  | zero => intro bestsize alo blo h; exact h
  | succ fuel ih =>
    intro bestsize alo blo h
    show StBound alo ahi blo bhi
      (if besti + bestsize < ahi ∧ bestj + bestsize < bhi ∧
          a.getD (besti + bestsize) ' ' = b.getD (bestj + bestsize) ' '
        then extRight a b ahi bhi besti bestj fuel (bestsize + 1)
        else (besti, bestj, bestsize))
    by_cases hc : besti + bestsize < ahi ∧ bestj + bestsize < bhi ∧
        a.getD (besti + bestsize) ' ' = b.getD (bestj + bestsize) ' '
    · rw [if_pos hc]
      apply ih
      unfold StBound at h ⊢
      simp only at h ⊢
      omega
    · rw [if_neg hc]; exact h

theorem flm_bound (a b : Str) (b2jf : Char → List Nat)
    (alo ahi blo bhi : Nat) (hA : alo ≤ ahi) (hB : blo ≤ bhi) :
    StBound alo ahi blo bhi (find_longest_match a b b2jf alo ahi blo bhi) := by
  unfold find_longest_match
  have h0 : StBound alo ahi blo bhi
      (flmRows a b2jf blo bhi (List.range' alo (ahi - alo))
        (alo, blo, 0) (fun _ => 0)) := by
    apply flmRows_bound a b2jf alo ahi blo bhi (ahi - alo) alo (le_refl alo)
      (by omega)
    · unfold StBound; simp only; omega
    · intro j hj; simp at hj
  set st := flmRows a b2jf blo bhi (List.range' alo (ahi - alo))
    (alo, blo, 0) (fun _ => 0)
  have h1 : StBound alo ahi blo bhi
      (extLeft a b alo blo st.1 st.1 st.2.1 st.2.2) := by
    apply extLeft_bound
    exact h0
  set st1 := extLeft a b alo blo st.1 st.1 st.2.1 st.2.2
  exact extRight_bound a b ahi bhi st1.1 st1.2.1 ahi st1.2.2 alo blo h1

theorem matchesSum_le (a b : Str) (b2jf : Char → List Nat) :
    ∀ (fuel alo ahi blo bhi : Nat), alo ≤ ahi → blo ≤ bhi →
      matchesSum a b b2jf fuel alo ahi blo bhi + alo ≤ ahi ∧
      matchesSum a b b2jf fuel alo ahi blo bhi + blo ≤ bhi := by
  intro fuel
  induction fuel with
  | zero => intro alo ahi blo bhi h1 h2; simp [matchesSum]; omega
  | succ fuel ih =>
    intro alo ahi blo bhi h1 h2
    have hb := flm_bound a b b2jf alo ahi blo bhi h1 h2
    set r := find_longest_match a b b2jf alo ahi blo bhi with hr
    obtain ⟨hb1, hb2, hb3, hb4⟩ := hb
    show matchesSum a b b2jf (fuel + 1) alo ahi blo bhi + alo ≤ ahi ∧ _
    rw [show matchesSum a b b2jf (fuel + 1) alo ahi blo bhi =
      (if r.2.2 = 0 then 0
       else r.2.2 +
        (if alo < r.1 ∧ blo < r.2.1
         then matchesSum a b b2jf fuel alo r.1 blo r.2.1 else 0) +
        (if r.1 + r.2.2 < ahi ∧ r.2.1 + r.2.2 < bhi
         then matchesSum a b b2jf fuel (r.1 + r.2.2) ahi (r.2.1 + r.2.2) bhi
         else 0)) from rfl]
    by_cases hz : r.2.2 = 0
    · rw [if_pos hz]; omega
    · rw [if_neg hz]
      have hL : (if alo < r.1 ∧ blo < r.2.1
          then matchesSum a b b2jf fuel alo r.1 blo r.2.1 else 0) + alo ≤ r.1 ∧
          (if alo < r.1 ∧ blo < r.2.1
          then matchesSum a b b2jf fuel alo r.1 blo r.2.1 else 0) + blo ≤ r.2.1 := by
        by_cases hc : alo < r.1 ∧ blo < r.2.1
        · rw [if_pos hc]; exact ih alo r.1 blo r.2.1 (by omega) (by omega)
        · rw [if_neg hc]; omega
      have hR : (if r.1 + r.2.2 < ahi ∧ r.2.1 + r.2.2 < bhi
          then matchesSum a b b2jf fuel (r.1 + r.2.2) ahi (r.2.1 + r.2.2) bhi
          else 0) + (r.1 + r.2.2) ≤ ahi ∧
          (if r.1 + r.2.2 < ahi ∧ r.2.1 + r.2.2 < bhi
          then matchesSum a b b2jf fuel (r.1 + r.2.2) ahi (r.2.1 + r.2.2) bhi
          else 0) + (r.2.1 + r.2.2) ≤ bhi := by
        by_cases hc : r.1 + r.2.2 < ahi ∧ r.2.1 + r.2.2 < bhi
        · rw [if_pos hc]
          exact ih (r.1 + r.2.2) ahi (r.2.1 + r.2.2) bhi (by omega) (by omega)
        · rw [if_neg hc]; omega
      omega

theorem ratioOf_nonneg (a b : Str) : 0 ≤ ratioOf a b := by
  unfold ratioOf
  by_cases h : a.length + b.length = 0
  · rw [if_pos h]; norm_num
  · rw [if_neg h]
    apply div_nonneg
    · positivity
    · positivity

theorem ratioOf_le_one (a b : Str) : ratioOf a b ≤ 1 := by
  unfold ratioOf
  by_cases h : a.length + b.length = 0
  · rw [if_pos h]
  · rw [if_neg h]
    have hm := matchesSum_le a b (b2j b) a.length 0 a.length 0 b.length
      (by omega) (by omega)
    rw [div_le_one (by exact_mod_cast Nat.pos_of_ne_zero h)]
    have : 2 * matchesSum a b (b2j b) a.length 0 a.length 0 b.length ≤
        a.length + b.length := by omega
    exact_mod_cast this

theorem similarity_nonneg (a b : Str) : 0 ≤ similarity a b := by
  unfold similarity
  by_cases h : _norm a = [] ∨ _norm b = []
  · simp only [if_pos h]; norm_num
  · simp only [if_neg h]; exact ratioOf_nonneg _ _

theorem similarity_le_one (a b : Str) : similarity a b ≤ 1 := by
  unfold similarity
  by_cases h : _norm a = [] ∨ _norm b = []
  · simp only [if_pos h]; norm_num
  · simp only [if_neg h]; exact ratioOf_le_one _ _

/-! ### Claim C1: the per-record score formula -/

/-- The boost exactly as claim C1 states it: +0.15 when the effective-last
token is non-empty and its normalized form equals the record's normalized
last name, +0.05 likewise for first — with no requirement that the
record's normalized name be non-empty. -/
def claimBoost (first_query last_query : Str) (r : Row) : ℚ :=
  (if last_query ≠ [] ∧ _norm last_query = _norm (orEmpty r.last_name)
    then (15/100 : ℚ) else 0) +
  (if first_query ≠ [] ∧ _norm first_query = _norm (orEmpty r.first_name)
    then (5/100 : ℚ) else 0)

/-- The boost as the code computes it: additionally the record's
normalized last (resp. first) name must be non-empty. -/
def amendedBoost (first_query last_query : Str) (r : Row) : ℚ :=
  (if last_query ≠ [] ∧ _norm (orEmpty r.last_name) ≠ [] ∧
      _norm last_query = _norm (orEmpty r.last_name)
    then (15/100 : ℚ) else 0) +
  (if first_query ≠ [] ∧ _norm (orEmpty r.first_name) ≠ [] ∧
      _norm first_query = _norm (orEmpty r.first_name)
    then (5/100 : ℚ) else 0)

/-- The maximum of the four constituent scores of the spec's matcher
contract (full-name, first, last, weighted-combined). -/
def claimMaxPart (query first_query last_query : Str) (r : Row) : ℚ :=
  let full_name_score :=
    if query ≠ [] then similarity query (orEmpty r.full_name) else 0
  let first_score :=
    if first_query ≠ [] then similarity first_query (orEmpty r.first_name) else 0
  let last_score :=
    if last_query ≠ [] then similarity last_query (orEmpty r.last_name) else 0
  let weighted := (if first_query ≠ [] then first_score * (4/10) else 0) +
    (if last_query ≠ [] then last_score * (6/10) else 0)
  let weight_total := (if first_query ≠ [] then (4/10 : ℚ) else 0) +
    (if last_query ≠ [] then (6/10 : ℚ) else 0)
  let combined_score := if weight_total ≠ 0 then weighted / weight_total else 0
  max (max (max full_name_score first_score) last_score) combined_score

/-- The score formula exactly as claim C1 states it:
`min(1.0, max(full, first, last, combined) + boost)` with the claim's
boost. -/
def claimScoreC1 (query first_query last_query : Str) (r : Row) : ℚ :=
  min 1 (claimMaxPart query first_query last_query r +
    claimBoost first_query last_query r)

/-- The score formula with the amended boost. -/
def amendedScoreC1 (query first_query last_query : Str) (r : Row) : ℚ :=
  min 1 (claimMaxPart query first_query last_query r +
    amendedBoost first_query last_query r)

theorem ite_sim_nonneg (c : Prop) [Decidable c] (x y : Str) :
    (0:ℚ) ≤ if c then similarity x y else 0 := by
  by_cases h : c
  · rw [if_pos h]; exact similarity_nonneg x y
  · rw [if_neg h]

theorem ite_const_nonneg (c : Prop) [Decidable c] {q : ℚ} (hq : 0 ≤ q) :
    (0:ℚ) ≤ if c then q else 0 := by
  by_cases h : c
  · rw [if_pos h]; exact hq
  · rw [if_neg h]

/-- C1 (amended): for every record row and every preprocessed query, the
matcher's final score is `min(1.0, max(full_name_score, first_score,
last_score, combined_score) + boost)`, where each boost part additionally
requires the record's normalized last (resp. first) name to be non-empty;
consequently every score lies in `[0, 1]`. -/
theorem rowScore_eq_amended_and_bounded
    (query first_query last_query : Str) (r : Row) :
    rowScore query first_query last_query r =
      amendedScoreC1 query first_query last_query r ∧
    0 ≤ rowScore query first_query last_query r ∧
    rowScore query first_query last_query r ≤ 1 := by
  refine ⟨?_, ?_, ?_⟩
  · simp only [rowScore, amendedScoreC1, claimMaxPart, amendedBoost]
    exact min_comm _ _
  · simp only [rowScore]
    apply le_min _ zero_le_one
    apply add_nonneg
    · exact le_trans (ite_sim_nonneg _ _ _)
        (le_trans (le_max_left _ _) (le_trans (le_max_left _ _) (le_max_left _ _)))
    · exact add_nonneg (ite_const_nonneg _ (by norm_num))
        (ite_const_nonneg _ (by norm_num))
  · simp only [rowScore]
    exact min_le_right _ _

/-- C1 counterexample: with the derived queries of
`find_best_matches(None, rows, first="!", last="!")` (so
`first_query = last_query = "!"`) and a record with no first/last name,
the code's score is 0 but the claim's formula gives 1/5: the claim's
boost conditions hold (`_norm "!" = "" = _norm ""`), the code's do not. -/
theorem rowScore_claim_counterexample :
    rowScore [] "!".data "!".data ({} : Row) = 0 ∧
    claimScoreC1 [] "!".data "!".data ({} : Row) = 1/5 ∧
    rowScore [] "!".data "!".data ({} : Row) ≠
      claimScoreC1 [] "!".data "!".data ({} : Row) := by
  exact ⟨by decide, by decide, by decide⟩

/-! ### Claim C2: filter, stable descending sort, truncation -/

/-- Descending order on match scores. -/
def ScoreGE (m1 m2 : Match) : Prop := m2.score ≤ m1.score

theorem insertDesc_perm (x : Match) (l : List Match) :
    List.Perm (insertDesc x l) (x :: l) := by
  induction l with
  | nil => exact List.Perm.refl _
  | cons y ys ih =>
    show List.Perm (if y.score ≤ x.score then x :: y :: ys
      else y :: insertDesc x ys) (x :: y :: ys)
    by_cases h : y.score ≤ x.score
    · rw [if_pos h]
    · rw [if_neg h]
      exact List.Perm.trans (List.Perm.cons y ih) (List.Perm.swap x y ys)

theorem insertDesc_sorted (x : Match) (l : List Match)
    (hl : List.Sorted ScoreGE l) : List.Sorted ScoreGE (insertDesc x l) := by
  induction l with
  | nil => simp [insertDesc, List.Sorted]
  | cons y ys ih =>
    show List.Sorted ScoreGE (if y.score ≤ x.score then x :: y :: ys
      else y :: insertDesc x ys)
    rw [List.sorted_cons] at hl
    by_cases h : y.score ≤ x.score
    · rw [if_pos h]
      rw [List.sorted_cons]
      refine ⟨?_, List.sorted_cons.mpr hl⟩
      intro b hb
      rcases List.mem_cons.mp hb with hb | hb
      · subst hb; exact h
      · exact le_trans (hl.1 b hb) h
    · rw [if_neg h]
      rw [List.sorted_cons]
      refine ⟨?_, ih hl.2⟩
      intro b hb
      have hmem := (insertDesc_perm x ys).mem_iff.mp hb
      rcases List.mem_cons.mp hmem with hb' | hb'
      · subst hb'; exact le_of_lt (lt_of_not_le h)
      · exact hl.1 b hb'

theorem insertDesc_filter_eq (x : Match) (s : ℚ) (l : List Match) :
    (insertDesc x l).filter (fun m => decide (m.score = s)) =
      (x :: l).filter (fun m => decide (m.score = s)) := by
  induction l with
  | nil => rfl
  | cons y ys ih =>
    show ((if y.score ≤ x.score then x :: y :: ys
      else y :: insertDesc x ys).filter (fun m => decide (m.score = s))) = _
    by_cases h : y.score ≤ x.score
    · rw [if_pos h]
    · rw [if_neg h]
      simp only [List.filter_cons, ih]
      by_cases hy : y.score = s
      · have hxs : ¬ x.score = s := fun hc => h (by rw [hc, hy])
        simp [hy, hxs]
      · simp [hy]

theorem sortDesc_perm (l : List Match) : List.Perm (sortDesc l) l := by
  induction l with
  | nil => exact List.Perm.refl _
  | cons x xs ih =>
    exact List.Perm.trans (insertDesc_perm x (sortDesc xs)) (List.Perm.cons x ih)

theorem sortDesc_sorted (l : List Match) : List.Sorted ScoreGE (sortDesc l) := by
  induction l with
  | nil => simp [sortDesc, List.Sorted]
  | cons x xs ih => exact insertDesc_sorted x (sortDesc xs) ih

/-- Stability of the descending sort: the equal-score sublists keep their
input order. -/
theorem sortDesc_filter_eq (s : ℚ) (l : List Match) :
    (sortDesc l).filter (fun m => decide (m.score = s)) =
      l.filter (fun m => decide (m.score = s)) := by
  induction l with
  | nil => rfl
  | cons x xs ih =>
    show ((insertDesc x (sortDesc xs)).filter (fun m => decide (m.score = s))) = _
    rw [insertDesc_filter_eq]
    simp only [List.filter_cons]
    rw [ih]

theorem qualifying_score (query : Option Str) (rows : List Row)
    (first last : Option Str) (threshold : ℚ) :
    ∀ m ∈ qualifying query rows first last threshold, threshold ≤ m.score := by
  intro m hm
  unfold qualifying at hm
  rcases List.mem_filterMap.mp hm with ⟨r, _, hr⟩
  by_cases hc : threshold ≤ rowScore (strippedQuery query)
      (firstQuery query first) (lastQuery query last) r
  · simp only [if_pos hc, Option.some.injEq] at hr
    rw [← hr]
    exact hc
  · simp only [if_neg hc] at hr
    simp at hr

/-- C2 (amended): whenever the query yields any usable text (otherwise the
result is empty per the early return), `find_best_matches` returns exactly
the stably descending-sorted qualifying matches (rows scoring at least the
threshold, boundary included), truncated to `limit`: the result is that
composition, is sorted descending, has at most `limit` elements, every
element scores at least the threshold, the sorted list is a permutation of
the qualifying list, and every equal-score class keeps its input order. -/
theorem find_best_matches_c2 (query : Option Str) (rows : List Row)
    (first last : Option Str) (limit : Nat) (threshold : ℚ)
    (h : ¬ (strippedQuery query = [] ∧ firstQuery query first = [] ∧
      lastQuery query last = [])) :
    find_best_matches query rows first last limit threshold =
      (sortDesc (qualifying query rows first last threshold)).take limit ∧
    List.Sorted ScoreGE (find_best_matches query rows first last limit threshold) ∧
    (find_best_matches query rows first last limit threshold).length ≤ limit ∧
    (∀ m ∈ find_best_matches query rows first last limit threshold,
      threshold ≤ m.score) ∧
    List.Perm (sortDesc (qualifying query rows first last threshold))
      (qualifying query rows first last threshold) ∧
    (∀ s : ℚ,
      (sortDesc (qualifying query rows first last threshold)).filter
        (fun m => decide (m.score = s)) =
      (qualifying query rows first last threshold).filter
        (fun m => decide (m.score = s))) := by
  have heq : find_best_matches query rows first last limit threshold =
      (sortDesc (qualifying query rows first last threshold)).take limit := by
    unfold find_best_matches
    rw [if_neg h]
  refine ⟨heq, ?_, ?_, ?_, sortDesc_perm _, fun s => sortDesc_filter_eq s _⟩
  · rw [heq]
    exact List.Pairwise.sublist (List.take_sublist _ _) (sortDesc_sorted _)
  · rw [heq]
    exact List.length_take_le _ _
  · rw [heq]
    intro m hm
    have hm1 : m ∈ sortDesc (qualifying query rows first last threshold) :=
      (List.take_sublist _ _).mem hm
    have hm2 := (sortDesc_perm _).mem_iff.mp hm1
    exact qualifying_score query rows first last threshold m hm2

/-- C2 witness: a concrete instantiation of the amended theorem. -/
theorem find_best_matches_c2_witness :
    find_best_matches (some "anna".data)
      [{ full_name := some "anna x".data, first_name := some "anna".data,
         last_name := some "x".data }] none none 3 (1/2) =
      (sortDesc (qualifying (some "anna".data)
        [{ full_name := some "anna x".data, first_name := some "anna".data,
           last_name := some "x".data }] none none (1/2))).take 3 :=
  (find_best_matches_c2 _ _ _ _ _ _ (by decide)).1

/-- C2 counterexample to the claim as stated: with no usable query text
and threshold 0, the code returns `[]` by the early return, while the
claim's filter-sort-truncate formula keeps the (score 0) record. -/
theorem find_best_matches_c2_counterexample :
    find_best_matches none [({} : Row)] none none 1 0 = [] ∧
    (sortDesc (qualifying none [({} : Row)] none none 0)).take 1 =
      [mkMatch 0 ({} : Row)] := by
  exact ⟨by decide, by decide⟩

/-! ### Claim C9: no usable query text gives an empty result -/

/-- C9: if the query text, the explicit first name and the explicit last
name all yield no non-empty text, `find_best_matches` returns the empty
list (a defined result, not an error — the embedding is total). -/
theorem find_best_matches_empty_input (query first last : Option Str)
    (rows : List Row) (limit : Nat) (threshold : ℚ)
    (hq : stripWs (orEmpty query) = []) (hf : orEmpty first = [])
    (hl : orEmpty last = []) :
    find_best_matches query rows first last limit threshold = [] := by
  have hq' : strippedQuery query = [] := hq
  have htok : queryTokens query = [] := by
    unfold queryTokens
    rw [hq']
    rfl
  have hfq : firstQuery query first = [] := by
    unfold firstQuery
    cases first with
    | none => rw [htok]; rfl
    | some f =>
      have : f = [] := hf
      subst this
      simp only [ne_eq, not_true_eq_false, if_false]
      rw [htok]; rfl
  have hlq : lastQuery query last = [] := by
    unfold lastQuery
    cases last with
    | none => rw [htok]; rfl
    | some l =>
      have : l = [] := hl
      subst this
      simp only [ne_eq, not_true_eq_false, if_false]
      rw [htok]; rfl
  unfold find_best_matches
  rw [if_pos ⟨hq', hfq, hlq⟩]

/-- C9 witness: a whitespace-only query with empty explicit names returns
the empty list even over a non-empty record set at threshold 0. -/
theorem find_best_matches_empty_input_witness :
    find_best_matches (some "   ".data)
      [{ full_name := some "anna".data }] (some []) none 10 0 = [] :=
  find_best_matches_empty_input _ _ _ _ _ _ (by decide) (by decide) (by decide)

/-! ### Claim C10: totality over arbitrary row mappings -/

/-- A row with every absent (`None`) field replaced by the (present)
empty string. -/
def defaultRow (r : Row) : Row :=
  { full_name := some (orEmpty r.full_name)
    first_name := some (orEmpty r.first_name)
    last_name := some (orEmpty r.last_name)
    role := some (orEmpty r.role)
    note := some (orEmpty r.note)
    mcml_url := some (orEmpty r.mcml_url)
    source_page := some (orEmpty r.source_page) }

theorem rowScore_defaultRow (q fq lq : Str) (r : Row) :
    rowScore q fq lq (defaultRow r) = rowScore q fq lq r := by
  simp [rowScore, defaultRow, orEmpty]

theorem mkMatch_defaultRow (s : ℚ) (r : Row) :
    mkMatch s (defaultRow r) = mkMatch s r := by
  simp [mkMatch, defaultRow, orEmpty]

/-- C10: `find_best_matches` is total over arbitrary row mappings; a row
with absent (`None`) fields scores exactly as the row with those fields
replaced by the empty string (so it still participates), and every
returned `Match` is built from some input row by reading each field with
the empty-string default. -/
theorem find_best_matches_total_rows (query first last : Option Str)
    (rows : List Row) (limit : Nat) (threshold : ℚ) :
    find_best_matches query (rows.map defaultRow) first last limit threshold =
      find_best_matches query rows first last limit threshold ∧
    (∀ m ∈ find_best_matches query rows first last limit threshold,
      ∃ r ∈ rows, m = mkMatch (rowScore (strippedQuery query)
        (firstQuery query first) (lastQuery query last) r) r) := by
  constructor
  · unfold find_best_matches
    have hq : qualifying query (rows.map defaultRow) first last threshold =
        qualifying query rows first last threshold := by
      unfold qualifying
      rw [List.filterMap_map]
      apply List.filterMap_congr
      intro r _
      simp only [Function.comp_apply, rowScore_defaultRow, mkMatch_defaultRow]
    rw [hq]
  · intro m hm
    unfold find_best_matches at hm
    by_cases hc : strippedQuery query = [] ∧ firstQuery query first = [] ∧
        lastQuery query last = []
    · rw [if_pos hc] at hm
      simp at hm
    · rw [if_neg hc] at hm
      have hm1 := (List.take_sublist _ _).mem hm
      have hm2 := (sortDesc_perm _).mem_iff.mp hm1
      unfold qualifying at hm2
      rcases List.mem_filterMap.mp hm2 with ⟨r, hr, hfr⟩
      refine ⟨r, hr, ?_⟩
      by_cases hsc : threshold ≤ rowScore (strippedQuery query)
          (firstQuery query first) (lastQuery query last) r
      · simp only [if_pos hsc, Option.some.injEq] at hfr
        exact hfr.symm
      · simp only [if_neg hsc] at hfr
        simp at hfr

/-! ### Dict lemmas for the resolver passes -/

theorem lookupKey_cons {κ : Type} [DecidableEq κ] (kv : κ × Person)
    (rest : List (κ × Person)) (k : κ) :
    lookupKey (kv :: rest) k = if kv.1 = k then some kv.2 else lookupKey rest k :=
  rfl

theorem lookupKey_replace {κ : Type} [DecidableEq κ]
    (d : List (κ × Person)) (k : κ) (v : Person) (k' : κ) :
    lookupKey (d.map (fun kv => if kv.1 = k then (k, v) else kv)) k' =
      match lookupKey d k' with
      | some w => if k' = k then some v else some w
      | none => none := by
  induction d with
  | nil => rfl
  | cons kv rest ih =>
    rw [List.map_cons]
    by_cases h1 : kv.1 = k
    · rw [if_pos h1, lookupKey_cons, lookupKey_cons]
      by_cases h2 : k' = k
      · rw [if_pos h2.symm, if_pos (h1.trans h2.symm)]
        simp [h2]
      · rw [if_neg (fun hc : k = k' => h2 hc.symm),
          if_neg (fun hc : kv.1 = k' => h2 ((h1.symm.trans hc).symm))]
        exact ih
    · rw [if_neg h1, lookupKey_cons, lookupKey_cons]
      by_cases h3 : kv.1 = k'
      · rw [if_pos h3, if_pos h3]
        have : ¬ k' = k := fun hc => h1 (h3.trans hc)
        simp [this]
      · rw [if_neg h3, if_neg h3]
        exact ih

theorem lookupKey_append_single {κ : Type} [DecidableEq κ]
    (d : List (κ × Person)) (k : κ) (v : Person) (k' : κ) :
    lookupKey (d ++ [(k, v)]) k' =
      match lookupKey d k' with
      | some w => some w
      | none => if k' = k then some v else none := by
  induction d with
  | nil =>
    show lookupKey [(k, v)] k' = _
    rw [lookupKey_cons]
    by_cases h : k = k'
    · rw [if_pos h, if_pos h.symm]
      rfl
    · rw [if_neg h, if_neg (fun hc : k' = k => h hc.symm)]
      rfl
  | cons kv rest ih =>
    rw [List.cons_append, lookupKey_cons, lookupKey_cons]
    by_cases h3 : kv.1 = k'
    · rw [if_pos h3, if_pos h3]
    · rw [if_neg h3, if_neg h3]
      exact ih

theorem lookupKey_eq_none {κ : Type} [DecidableEq κ]
    (d : List (κ × Person)) (k : κ) (h : k ∉ d.map Prod.fst) :
    lookupKey d k = none := by
  induction d with
  | nil => rfl
  | cons kv rest ih =>
    rw [lookupKey_cons]
    rw [if_neg (fun hc : kv.1 = k => h (by
      rw [List.map_cons]
      exact hc ▸ List.mem_cons_self _ _))]
    exact ih (fun hc => h (by
      rw [List.map_cons]
      exact List.mem_cons_of_mem _ hc))

theorem lookupKey_isSome {κ : Type} [DecidableEq κ]
    (d : List (κ × Person)) (k : κ) (h : k ∈ d.map Prod.fst) :
    (lookupKey d k).isSome := by
  induction d with
  | nil => simp at h
  | cons kv rest ih =>
    rw [lookupKey_cons]
    by_cases hc : kv.1 = k
    · rw [if_pos hc]; rfl
    · rw [if_neg hc]
      apply ih
      rw [List.map_cons] at h
      rcases List.mem_cons.mp h with h' | h'
      · exact absurd h'.symm hc
      · exact h'

theorem dictInsert_lookup {κ : Type} [DecidableEq κ]
    (d : List (κ × Person)) (k : κ) (v : Person) (k' : κ) :
    lookupKey (dictInsert d k v) k' =
      if k' = k then some v else lookupKey d k' := by
  unfold dictInsert
  by_cases hm : k ∈ d.map Prod.fst
  · rw [if_pos hm, lookupKey_replace]
    by_cases h : k' = k
    · subst h
      rcases Option.isSome_iff_exists.mp (lookupKey_isSome d k' hm) with ⟨w, hw⟩
      rw [hw]
    · rcases hl : lookupKey d k' with _ | w <;> simp [h]
  · rw [if_neg hm, lookupKey_append_single]
    by_cases h : k' = k
    · subst h
      rw [lookupKey_eq_none d k' hm]
    · rcases hl : lookupKey d k' with _ | w <;> simp [h]

theorem dictInsert_keys {κ : Type} [DecidableEq κ]
    (d : List (κ × Person)) (k : κ) (v : Person) :
    (dictInsert d k v).map Prod.fst =
      if k ∈ d.map Prod.fst then d.map Prod.fst else d.map Prod.fst ++ [k] := by
  unfold dictInsert
  by_cases hm : k ∈ d.map Prod.fst
  · rw [if_pos hm, if_pos hm, List.map_map]
    apply List.map_congr_left
    intro kv _
    by_cases h : kv.1 = k
    · simp [h]
    · simp [h]
  · rw [if_neg hm, if_neg hm]
    simp

theorem dictInsert_keys_nodup {κ : Type} [DecidableEq κ]
    (d : List (κ × Person)) (k : κ) (v : Person)
    (h : (d.map Prod.fst).Nodup) : ((dictInsert d k v).map Prod.fst).Nodup := by
  rw [dictInsert_keys]
  by_cases hm : k ∈ d.map Prod.fst
  · rw [if_pos hm]; exact h
  · rw [if_neg hm]
    simp [List.nodup_append, h, hm]

theorem dictInsert_coherent {κ : Type} [DecidableEq κ]
    (f : Person → κ) (d : List (κ × Person)) (k : κ) (v : Person)
    (hd : ∀ kv ∈ d, f kv.2 = kv.1) (hv : f v = k) :
    ∀ kv ∈ dictInsert d k v, f kv.2 = kv.1 := by
  unfold dictInsert
  by_cases hm : k ∈ d.map Prod.fst
  · rw [if_pos hm]
    intro kv hkv
    rcases List.mem_map.mp hkv with ⟨kv', hkv', hrep⟩
    by_cases h : kv'.1 = k
    · rw [if_pos h] at hrep
      rw [← hrep]
      exact hv
    · rw [if_neg h] at hrep
      rw [← hrep]
      exact hd kv' hkv'
  · rw [if_neg hm]
    intro kv hkv
    rcases List.mem_append.mp hkv with h | h
    · exact hd kv h
    · rw [List.mem_singleton.mp h]
      exact hv

/-! ### Claim C4: the pass-1 exact fold -/

/-- C4 (amended): pass 1 groups by the plainly lowercased tuple
`(full_name.lower(), mcml_url.lower(), role.lower())` — not by the shared
`_norm` normalization — and within a group the last-seen candidate wins:
the `by_exact` dict has pairwise distinct keys, each entry's key is the
`exactKey` of its value, and the entry stored under a key is the last
input candidate with that key. -/
theorem pass1_exact_fold (ps : List Person) :
    ((by_exact ps).map Prod.fst).Nodup ∧
    (∀ kv ∈ by_exact ps, exactKey kv.2 = kv.1) ∧
    (∀ k, lookupKey (by_exact ps) k =
      (ps.filter (fun p => decide (exactKey p = k))).getLast?) := by
  induction ps using List.reverseRecOn with
  | nil => exact ⟨List.nodup_nil, by simp [by_exact], fun k => rfl⟩
  | append_singleton ps p ih =>
    have hstep : by_exact (ps ++ [p]) = dictInsert (by_exact ps) (exactKey p) p := by
      unfold by_exact
      rw [List.foldl_append]
      rfl
    refine ⟨?_, ?_, ?_⟩
    · rw [hstep]
      exact dictInsert_keys_nodup _ _ _ ih.1
    · rw [hstep]
      exact dictInsert_coherent exactKey _ _ _ ih.2.1 rfl
    · intro k
      rw [hstep, dictInsert_lookup, List.filter_append]
      by_cases hk : k = exactKey p
      · rw [if_pos hk]
        rw [show (List.filter (fun q => decide (exactKey q = k)) [p]) = [p] by
          simp [hk]]
        rw [List.getLast?_concat]
      · rw [if_neg hk]
        rw [show (List.filter (fun q => decide (exactKey q = k)) [p]) = [] by
          simp [Ne.symm hk]]
        rw [List.append_nil]
        exact ih.2.2 k

/-- C4 counterexample to the claim as stated: two candidates whose
full names agree after `_norm` (so they share the claimed normalized
grouping tuple) but differ after plain lowercasing are NOT grouped by
pass 1 — both survive. -/
theorem pass1_normkey_counterexample :
    normKey ({ full_name := "Ann-Li X".data } : Person) =
      normKey ({ full_name := "Ann Li X".data } : Person) ∧
    pass1 [({ full_name := "Ann-Li X".data } : Person),
      ({ full_name := "Ann Li X".data } : Person)] =
      [({ full_name := "Ann-Li X".data } : Person),
       ({ full_name := "Ann Li X".data } : Person)] := by
  exact ⟨by decide, by decide⟩

/-! ### Claims C3 and C5: the pass-2 identity fold -/

theorem lookupKey_none_not_mem {κ : Type} [DecidableEq κ]
    (d : List (κ × Person)) (k : κ) (h : lookupKey d k = none) :
    k ∉ d.map Prod.fst := by
  intro hmem
  have := lookupKey_isSome d k hmem
  rw [h] at this
  exact absurd this (by simp)

theorem lookupKey_some_mem {κ : Type} [DecidableEq κ]
    (d : List (κ × Person)) (k : κ) (w : Person)
    (h : lookupKey d k = some w) : k ∈ d.map Prod.fst := by
  by_contra hmem
  rw [lookupKey_eq_none d k hmem] at h
  exact Option.noConfusion h

/-- One pass-2 step, recast through `dictInsert`. -/
theorem by_nameStep_eq (d : List (Str × Person)) (p : Person) :
    by_nameStep d p = match lookupKey d (nameKey p) with
      | none => dictInsert d (nameKey p) p
      | some existing =>
        if _person_score existing < _person_score p
        then dictInsert d (nameKey p) p else d := by
  unfold by_nameStep dictInsert
  cases hl : lookupKey d (nameKey p) with
  | none =>
    dsimp only
    rw [if_neg (lookupKey_none_not_mem _ _ hl)]
  | some e =>
    dsimp only
    by_cases hs : _person_score e < _person_score p
    · rw [if_pos hs, if_pos (lookupKey_some_mem _ _ _ hl), if_pos hs]
    · rw [if_neg hs, if_neg hs]

theorem by_name_invariant (ps : List Person) :
    ((by_name ps).map Prod.fst).Nodup ∧
    (∀ kv ∈ by_name ps, nameKey kv.2 = kv.1) := by
  induction ps using List.reverseRecOn with
  | nil => exact ⟨List.nodup_nil, by simp [by_name]⟩
  | append_singleton ps p ih =>
    have hstep : by_name (ps ++ [p]) = by_nameStep (by_name ps) p := by
      unfold by_name
      rw [List.foldl_append]
      rfl
    rw [hstep, by_nameStep_eq]
    cases hl : lookupKey (by_name ps) (nameKey p) with
    | none =>
      exact ⟨dictInsert_keys_nodup _ _ _ ih.1,
        dictInsert_coherent nameKey _ _ _ ih.2 rfl⟩
    | some e =>
      dsimp only
      by_cases hs : _person_score e < _person_score p
      · rw [if_pos hs]
        exact ⟨dictInsert_keys_nodup _ _ _ ih.1,
          dictInsert_coherent nameKey _ _ _ ih.2 rfl⟩
      · rw [if_neg hs]
        exact ih

/-- C3: the output of a single resolution run's merge contains at most one
record per normalized full name: no two output records share a
`_norm`-equal full name. -/
theorem resolveMerge_unique_names (ps : List Person) :
    (resolveMerge ps).Pairwise
      (fun p q => _norm p.full_name ≠ _norm q.full_name) := by
  obtain ⟨hnodup, hco⟩ := by_name_invariant (pass1 ps)
  unfold resolveMerge
  rw [List.pairwise_map]
  have hpair : (by_name (pass1 ps)).Pairwise
      (fun kv kv' => kv.1 ≠ kv'.1) := by
    rw [← List.pairwise_map (f := Prod.fst) (R := (· ≠ ·))]
    exact hnodup
  apply hpair.imp_of_mem
  intro kv kv' hmem hmem' hne
  have h1 := hco kv hmem
  have h2 := hco kv' hmem'
  unfold nameKey at h1 h2
  rw [h1, h2]
  exact hne

/-- The choice function exactly as claim C5 words it: among grouped
candidates, keep the strictly richest, earliest first on ties — the first
element at least as rich as every other. -/
def claimPick (l : List Person) : Option Person :=
  l.find? (fun p => l.all (fun q => _person_score q ≤ _person_score p))

/-- The running best of the code's fold: replace only on strictly higher
richness. -/
def runBest (acc : Person) : List Person → Person
  | [] => acc
  | p :: rest =>
    runBest (if _person_score acc < _person_score p then p else acc) rest

theorem find?_congr_mem {α : Type} (l : List α) (p1 p2 : α → Bool)
    (h : ∀ x ∈ l, p1 x = p2 x) : l.find? p1 = l.find? p2 := by
  induction l with
  | nil => rfl
  | cons x xs ih =>
    rw [List.find?_cons, List.find?_cons, h x (List.mem_cons_self x xs),
      ih (fun y hy => h y (List.mem_cons_of_mem x hy))]

theorem runBest_append (acc : Person) (l : List Person) (p : Person) :
    runBest acc (l ++ [p]) =
      if _person_score (runBest acc l) < _person_score p then p
      else runBest acc l := by
  induction l generalizing acc with
  | nil => rfl
  | cons q rest ih =>
    rw [List.cons_append]
    show runBest (if _person_score acc < _person_score q then q else acc)
      (rest ++ [p]) = _
    exact ih _

theorem find?_cons_pos {α : Type} (p : α → Bool) (a : α) (l : List α)
    (h : p a = true) : (a :: l).find? p = some a :=
  List.find?_cons_of_pos l h

theorem find?_cons_neg {α : Type} (p : α → Bool) (a : α) (l : List α)
    (h : p a = false) : (a :: l).find? p = l.find? p :=
  List.find?_cons_of_neg l (by simp [h])

theorem claimPick_cons (l : List Person) :
    ∀ acc, claimPick (acc :: l) = some (runBest acc l) := by
  induction l with
  | nil =>
    intro acc
    unfold claimPick runBest
    rw [find?_cons_pos (fun x => [acc].all
      (fun q => decide (_person_score q ≤ _person_score x))) acc _ (by simp)]
  | cons p rest ih =>
    intro acc
    by_cases hlt : _person_score acc < _person_score p
    · have hPacc : ((fun x => (acc :: p :: rest).all
          (fun q => decide (_person_score q ≤ _person_score x))) acc) = false := by
        simp only [List.all_cons, Bool.and_eq_false_iff]
        right; left
        simpa using hlt
      unfold claimPick
      rw [find?_cons_neg (fun x => (acc :: p :: rest).all
        (fun q => decide (_person_score q ≤ _person_score x))) acc _ hPacc]
      rw [find?_congr_mem (p :: rest) _
        (fun x => (p :: rest).all
          (fun q => decide (_person_score q ≤ _person_score x)))
        (by
          intro x _
          simp only [List.all_cons]
          by_cases hx : (decide (_person_score p ≤ _person_score x) &&
              rest.all (fun q => decide (_person_score q ≤ _person_score x))) = true
          · rw [hx]
            simp only [Bool.and_true]
            simp only [Bool.and_eq_true, decide_eq_true_eq] at hx
            have : _person_score acc ≤ _person_score x :=
              le_trans (le_of_lt hlt) hx.1
            simpa using this
          · rw [Bool.eq_false_iff.mpr hx]
            simp)]
      have hihp := ih p
      unfold claimPick at hihp
      rw [hihp]
      show _ = some (runBest
        (if _person_score acc < _person_score p then p else acc) rest)
      rw [if_pos hlt]
    · have hple : _person_score p ≤ _person_score acc := le_of_not_lt hlt
      show claimPick (acc :: p :: rest) =
        some (runBest (if _person_score acc < _person_score p then p else acc) rest)
      rw [if_neg hlt, ← ih acc]
      unfold claimPick
      by_cases hPacc : ((acc :: p :: rest).all
          (fun q => decide (_person_score q ≤ _person_score acc))) = true
      · have hQacc : ((acc :: rest).all
            (fun q => decide (_person_score q ≤ _person_score acc))) = true := by
          simp only [List.all_cons, Bool.and_eq_true] at hPacc ⊢
          exact ⟨hPacc.1, hPacc.2.2⟩
        rw [find?_cons_pos (fun x => (acc :: p :: rest).all
          (fun q => decide (_person_score q ≤ _person_score x))) acc _ hPacc]
        rw [find?_cons_pos (fun x => (acc :: rest).all
          (fun q => decide (_person_score q ≤ _person_score x))) acc _ hQacc]
      · have hPacc1 : ((acc :: p :: rest).all
            (fun q => decide (_person_score q ≤ _person_score acc))) = false :=
          Bool.eq_false_iff.mpr hPacc
      -- acc fails only because some rest element strictly exceeds it
        have hrest : (rest.all
            (fun q => decide (_person_score q ≤ _person_score acc))) = false := by
          simp only [List.all_cons, Bool.and_eq_false_iff] at hPacc1
          rcases hPacc1 with h1 | h2
          · exfalso
            rw [show (decide (_person_score acc ≤ _person_score acc)) = true
              by simp] at h1
            exact Bool.noConfusion h1
          · rcases h2 with h2 | h3
            · exfalso
              rw [show (decide (_person_score p ≤ _person_score acc)) = true
                by simpa using hple] at h2
              exact Bool.noConfusion h2
            · exact h3
        have hQacc : ((acc :: rest).all
            (fun q => decide (_person_score q ≤ _person_score acc))) = false := by
          simp only [List.all_cons, Bool.and_eq_false_iff]
          exact Or.inr hrest
        have hrestp : (rest.all
            (fun q => decide (_person_score q ≤ _person_score p))) = false := by
          rcases List.all_eq_false.mp hrest with ⟨q, hq, hqf⟩
          apply List.all_eq_false.mpr
          refine ⟨q, hq, ?_⟩
          simp only [decide_eq_true_eq] at hqf ⊢
          intro hc
          exact hqf (le_trans hc hple)
        have hPp : ((acc :: p :: rest).all
            (fun q => decide (_person_score q ≤ _person_score p))) = false := by
          simp only [List.all_cons, Bool.and_eq_false_iff]
          exact Or.inr (Or.inr hrestp)
        rw [find?_cons_neg (fun x => (acc :: p :: rest).all
          (fun q => decide (_person_score q ≤ _person_score x))) acc _ hPacc1]
        rw [find?_cons_neg (fun x => (acc :: p :: rest).all
          (fun q => decide (_person_score q ≤ _person_score x))) p _ hPp]
        rw [find?_cons_neg (fun x => (acc :: rest).all
          (fun q => decide (_person_score q ≤ _person_score x))) acc _ hQacc]
        apply find?_congr_mem
        intro x _
        simp only [List.all_cons]
        by_cases h1 : (decide (_person_score acc ≤ _person_score x)) = true
        · by_cases h2 : (rest.all
              (fun q => decide (_person_score q ≤ _person_score x))) = true
          · have hax : _person_score acc ≤ _person_score x := by simpa using h1
            have hpx : _person_score p ≤ _person_score x := le_trans hple hax
            rw [h1, h2, show (decide (_person_score p ≤ _person_score x)) = true
              by simpa using hpx]
            rfl
          · rw [Bool.eq_false_iff.mpr h2]
            simp
        · rw [Bool.eq_false_iff.mpr h1]
          simp

/-- C5: pass 2 keeps, for each normalized-name group, the candidate with
the strictly highest richness score, and on ties the earliest-encountered
one, regardless of the input order: the entry stored under each name key
is the first group member whose `_person_score` is at least that of every
other group member. -/
theorem pass2_richness_merge (ps : List Person) (k : Str) :
    lookupKey (by_name ps) k =
      claimPick (ps.filter (fun p => decide (nameKey p = k))) := by
  induction ps using List.reverseRecOn with
  | nil => rfl
  | append_singleton ps p ih =>
    have hstep : by_name (ps ++ [p]) = by_nameStep (by_name ps) p := by
      unfold by_name
      rw [List.foldl_append]
      rfl
    rw [hstep, by_nameStep_eq, List.filter_append]
    by_cases hk : nameKey p = k
    · rw [show (List.filter (fun q => decide (nameKey q = k)) [p]) = [p] by
        simp [hk]]
      rw [hk]
      cases hG : ps.filter (fun q => decide (nameKey q = k)) with
      | nil =>
        rw [show lookupKey (by_name ps) k = none by
          rw [ih, hG]; rfl]
        dsimp only
        rw [dictInsert_lookup, if_pos rfl]
        rw [List.nil_append, claimPick_cons]
        rfl
      | cons g G' =>
        rw [show lookupKey (by_name ps) k = some (runBest g G') by
          rw [ih, hG, claimPick_cons]]
        dsimp only
        by_cases hs : _person_score (runBest g G') < _person_score p
        · rw [if_pos hs, dictInsert_lookup, if_pos rfl]
          rw [List.cons_append, claimPick_cons, runBest_append, if_pos hs]
        · rw [if_neg hs]
          rw [List.cons_append, claimPick_cons, runBest_append, if_neg hs]
          rw [ih, hG, claimPick_cons]
    · rw [show (List.filter (fun q => decide (nameKey q = k)) [p]) = [] by
        simp [Ne.symm (fun hc : k = nameKey p => hk hc.symm)]]
      rw [List.append_nil]
      cases hl : lookupKey (by_name ps) (nameKey p) with
      | none =>
        dsimp only
        rw [dictInsert_lookup, if_neg (fun hc : k = nameKey p => hk hc.symm)]
        exact ih
      | some e =>
        dsimp only
        by_cases hs : _person_score e < _person_score p
        · rw [if_pos hs, dictInsert_lookup,
            if_neg (fun hc : k = nameKey p => hk hc.symm)]
          exact ih
        · rw [if_neg hs]
          exact ih

/-! ### Claim C6: the bounded note scan -/

theorem noteScanAux_eq_find (n : Nat) (anchors : List Anchor) :
    noteScanAux n anchors =
      ((anchors.take n).find? (fun a => isGroupMarker (_clean_ws a.text))).map
        (fun a => (cleanGroupText (_clean_ws a.text), a.href)) := by
  induction n generalizing anchors with
  | zero => simp [noteScanAux]
  | succ n ih =>
    cases anchors with
    | nil => simp [noteScanAux]
    | cons a rest =>
      rw [List.take_succ_cons]
      show (if isGroupMarker (_clean_ws a.text)
        then some (cleanGroupText (_clean_ws a.text), a.href)
        else noteScanAux n rest) = _
      by_cases h : isGroupMarker (_clean_ws a.text)
      · rw [if_pos h,
          find?_cons_pos (fun a => isGroupMarker (_clean_ws a.text)) a _ h]
        rfl
      · rw [if_neg h,
          find?_cons_neg (fun a => isGroupMarker (_clean_ws a.text)) a _
            (Bool.eq_false_iff.mpr h)]
        exact ih rest

/-- C6 (amended): the affiliation scan examines at most the first 25
hyperlinks after the name element (it is not unbounded): the first of
those whose cleaned text contains the arrow glyph or starts with the
literal "Group" supplies the note (marker stripped), and when that link
has a target URL, its absolutized form overrides the previously picked
profile url. -/
theorem noteAndUrl_spec (block_links : List Str) (anchors : List Anchor) :
    noteAndUrl block_links anchors =
      match (anchors.take 25).find? (fun a => isGroupMarker (_clean_ws a.text)) with
      | some a => (cleanGroupText (_clean_ws a.text),
          if a.href ≠ [] then _abs_url a.href else pickUrl block_links)
      | none => ([], pickUrl block_links) := by
  unfold noteAndUrl noteScan
  rw [noteScanAux_eq_find]
  cases (anchors.take 25).find? (fun a => isGroupMarker (_clean_ws a.text)) with
  | none => rfl
  | some a => rfl

/-- C6 counterexample to the claim as stated: with 25 plain hyperlinks
before the marker link, the code's bounded scan finds no note and keeps
the empty url, while the claim's unbounded scan would find the marker
link, make it the note and override the url. -/
theorem noteAndUrl_claim_counterexample :
    noteAndUrl [] (List.replicate 25 ⟨"x".data, []⟩ ++
      [⟨"Group A".data, "g".data⟩]) = ([], []) ∧
    noteAndUrlClaim [] (List.replicate 25 ⟨"x".data, []⟩ ++
      [⟨"Group A".data, "g".data⟩]) =
      ("Group A".data, "https://mcml.ai/g".data) ∧
    noteAndUrl [] (List.replicate 25 ⟨"x".data, []⟩ ++
      [⟨"Group A".data, "g".data⟩]) ≠
    noteAndUrlClaim [] (List.replicate 25 ⟨"x".data, []⟩ ++
      [⟨"Group A".data, "g".data⟩]) := by
  exact ⟨by decide, by decide, by decide⟩

/-! ### Claim C7: reflexivity of `similarity`.

For `ratioOf a a` the best block found by the dynamic program is always
on the diagonal, and the extension loops then grow any diagonal block to
the whole string, so `find_longest_match` returns the full range at once.
The key quantity is `selfRun a j`: the length of the diagonal chain
ending at position `j`, which is broken wherever autojunk removed the
character from `b2j`. -/

/-- The diagonal chain length ending at position `j` when matching `a`
against itself: it grows by one at each position present in its own
`b2j` entry and resets to 0 at positions autojunk removed. -/
def selfRun (a : Str) : Nat → Nat
  | 0 => if 0 ∈ b2j a (a.getD 0 ' ') then 1 else 0
  | j + 1 => if (j + 1) ∈ b2j a (a.getD (j + 1) ' ') then selfRun a j + 1 else 0

/-- The diagonal chain length available to row `t` from the previous
row. -/
def prevRun (a : Str) : Nat → Nat
  | 0 => 0
  | t + 1 => selfRun a t

theorem mem_positions {a : Str} {c : Char} {j : Nat}
    (h : j ∈ positions a c) : j < a.length ∧ a.getD j ' ' = c := by
  unfold positions at h
  have h1 := List.of_mem_filter h
  have h2 := List.mem_range.mp (List.mem_filter.mp h).1
  exact ⟨h2, by simpa using h1⟩

theorem mem_b2j_lt {a : Str} {c : Char} {j : Nat} (h : j ∈ b2j a c) :
    j < a.length := by
  unfold b2j at h
  by_cases hp : isPopular a c
  · rw [if_pos hp] at h; simp at h
  · rw [if_neg hp] at h; exact (mem_positions h).1

theorem mem_b2j_getD {a : Str} {c : Char} {j : Nat} (h : j ∈ b2j a c) :
    a.getD j ' ' = c := by
  unfold b2j at h
  by_cases hp : isPopular a c
  · rw [if_pos hp] at h; simp at h
  · rw [if_neg hp] at h; exact (mem_positions h).2

theorem mem_b2j_self {a : Str} {c : Char} {j : Nat} (h : j ∈ b2j a c) :
    j ∈ b2j a (a.getD j ' ') := by
  rw [mem_b2j_getD h]
  exact h

theorem b2j_row_self {a : Str} {t : Nat} (ht : t < a.length)
    (hne : b2j a (a.getD t ' ') ≠ []) : t ∈ b2j a (a.getD t ' ') := by
  unfold b2j at hne ⊢
  by_cases hp : isPopular a (a.getD t ' ')
  · rw [if_pos hp] at hne; exact absurd rfl hne
  · rw [if_neg hp]
    unfold positions
    apply List.mem_filter.mpr
    exact ⟨List.mem_range.mpr ht, by simp⟩

/-- The `b2j` entry of the character at `t`, split around `t` into
strictly smaller and strictly larger positions. -/
theorem b2j_split {a : Str} {c : Char} {t : Nat} (h : t ∈ b2j a c) :
    ∃ A B, b2j a c = A ++ t :: B ∧ (∀ j ∈ A, j < t) ∧ (∀ j ∈ B, t < j) := by
  have ht := mem_b2j_lt h
  have hc := mem_b2j_getD h
  unfold b2j at h ⊢
  by_cases hp : isPopular a c
  · rw [if_pos hp] at h; simp at h
  · rw [if_neg hp] at h ⊢
    unfold positions at h ⊢
    refine ⟨(List.range' 0 t).filter (fun j => a.getD j ' ' == c),
      (List.range' (t + 1) (a.length - t - 1)).filter
        (fun j => a.getD j ' ' == c), ?_, ?_, ?_⟩
    · rw [List.range_eq_range']
      have hsplit : List.range' 0 t 1 ++ List.range' t (a.length - t) 1 =
          List.range' 0 (a.length - t + t) 1 := by
        have h0 := List.range'_append 0 t (a.length - t) 1
        simpa using h0
      rw [show a.length - t + t = a.length by omega] at hsplit
      rw [show List.range' 0 a.length = List.range' 0 a.length 1 from rfl,
        ← hsplit]
      rw [show List.range' t (a.length - t) = t :: List.range' (t + 1) (a.length - t - 1) by
        rw [show a.length - t = (a.length - t - 1) + 1 by omega]
        rfl]
      rw [List.filter_append, List.filter_cons]
      rw [show (a.getD t ' ' == c) = true by simpa using hc]
      simp
    · intro j hj
      have := (List.mem_filter.mp hj).1
      have := List.mem_range'.mp this
      omega
    · intro j hj
      have := (List.mem_filter.mp hj).1
      have := List.mem_range'.mp this
      omega

/-- The `[blo, bhi)` filter of `flmRows` is the identity over full
ranges. -/
theorem b2j_filter_full (a : Str) (c : Char) :
    (b2j a c).filter
      (fun j => decide (0 ≤ j) && decide (j < a.length)) = b2j a c := by
  apply List.filter_eq_self.mpr
  intro j hj
  simp [mem_b2j_lt hj]

theorem selfRun_step {a : Str} {j : Nat}
    (h : j ∈ b2j a (a.getD j ' ')) :
    selfRun a j = (match j with | 0 => 0 | r + 1 => selfRun a r) + 1 := by
  cases j with
  | zero =>
    rw [show selfRun a 0 =
      (if 0 ∈ b2j a (a.getD 0 ' ') then 1 else 0) from rfl, if_pos h]
  | succ r =>
    rw [show selfRun a (r + 1) =
      (if (r + 1) ∈ b2j a (a.getD (r + 1) ' ') then selfRun a r + 1 else 0)
      from rfl, if_pos h]

theorem selfRun_zero {a : Str} {j : Nat}
    (h : j ∉ b2j a (a.getD j ' ')) : selfRun a j = 0 := by
  cases j with
  | zero =>
    rw [show selfRun a 0 =
      (if 0 ∈ b2j a (a.getD 0 ' ') then 1 else 0) from rfl, if_neg h]
  | succ r =>
    rw [show selfRun a (r + 1) =
      (if (r + 1) ∈ b2j a (a.getD (r + 1) ' ') then selfRun a r + 1 else 0)
      from rfl, if_neg h]

/-- On a self-match, the left extension of a diagonal block reaches the
start of the string. -/
theorem extLeft_diag (a : Str) :
    ∀ (fuel i k : Nat), i ≤ fuel →
      extLeft a a 0 0 fuel i i k = (0, 0, k + i) := by
  intro fuel
  induction fuel with
  | zero =>
    intro i k hi
    have : i = 0 := by omega
    subst this
    rfl
  | succ fuel ih =>
    intro i k hi
    show (if 0 < i ∧ 0 < i ∧ a.getD (i - 1) ' ' = a.getD (i - 1) ' '
      then extLeft a a 0 0 fuel (i - 1) (i - 1) (k + 1)
      else (i, i, k)) = (0, 0, k + i)
    by_cases h0 : 0 < i
    · rw [if_pos ⟨h0, h0, rfl⟩]
      rw [ih (i - 1) (k + 1) (by omega)]
      have : k + 1 + (i - 1) = k + i := by omega
      rw [this]
    · rw [if_neg (by intro hc; exact h0 hc.1)]
      have : i = 0 := by omega
      subst this
      rfl

/-- On a self-match, the right extension of a diagonal block starting at
0 reaches the end of the string. -/
theorem extRight_diag (a : Str) :
    ∀ (fuel k : Nat), k ≤ a.length → a.length - k ≤ fuel →
      extRight a a a.length a.length 0 0 fuel k = (0, 0, a.length) := by
  intro fuel
  induction fuel with
  | zero =>
    intro k hk hf
    have : k = a.length := by omega
    subst this
    rfl
  | succ fuel ih =>
    intro k hk hf
    show (if 0 + k < a.length ∧ 0 + k < a.length ∧
        a.getD (0 + k) ' ' = a.getD (0 + k) ' '
      then extRight a a a.length a.length 0 0 fuel (k + 1)
      else (0, 0, k)) = (0, 0, a.length)
    by_cases h0 : 0 + k < a.length
    · rw [if_pos ⟨h0, h0, rfl⟩]
      exact ih (k + 1) (by omega) (by omega)
    · rw [if_neg (by intro hc; exact h0 hc.1)]
      have : k = a.length := by omega
      rw [this]

/-- A column not in the processed list keeps its entry. -/
theorem flmRow_map_not_mem (m : Nat → Nat) (t : Nat) :
    ∀ (L : List Nat) (st : Nat × Nat × Nat) (nj : Nat → Nat) (j : Nat),
      j ∉ L → (flmRow m t L st nj).2 j = nj j := by
  intro L
  induction L with
  | nil => intro st nj j _; rfl
  | cons j' rest ih =>
    intro st nj j hj
    have hne : j ≠ j' := fun hc => hj (hc ▸ List.mem_cons_self j' rest)
    have hnr : j ∉ rest := fun hc => hj (List.mem_cons_of_mem j' hc)
    show (flmRow m t rest _ _).2 j = nj j
    rw [ih _ _ j hnr]
    rw [if_neg hne]

/-- A column in the processed list gets the row value determined by the
previous row's map alone (the written value does not depend on the new
map, so duplicates are harmless). -/
theorem flmRow_map_mem (m : Nat → Nat) (t : Nat) :
    ∀ (L : List Nat) (st : Nat × Nat × Nat) (nj : Nat → Nat) (j : Nat),
      j ∈ L → (flmRow m t L st nj).2 j =
        (if j = 0 then 0 else m (j - 1)) + 1 := by
  intro L
  induction L with
  | nil => intro st nj j hj; simp at hj
  | cons j' rest ih =>
    intro st nj j hj
    show (flmRow m t rest _ _).2 j = _
    by_cases hjr : j ∈ rest
    · exact ih _ _ j hjr
    · have hjj : j = j' := by
        rcases List.mem_cons.mp hj with h | h
        · exact h
        · exact absurd h hjr
      subst hjj
      rw [flmRow_map_not_mem m t rest _ _ j hjr]
      rw [if_pos rfl]

/-- If every column's candidate chain is within the current best size,
the row leaves the best block unchanged. -/
theorem flmRow_st_noupdate (m : Nat → Nat) (t : Nat) :
    ∀ (L : List Nat) (st : Nat × Nat × Nat) (nj : Nat → Nat),
      (∀ j ∈ L, ((if j = 0 then 0 else m (j - 1)) + 1) ≤ st.2.2) →
      (flmRow m t L st nj).1 = st := by
  intro L
  induction L with
  | nil => intro st nj _; rfl
  | cons j rest ih =>
    intro st nj hb
    have hj := hb j (List.mem_cons_self j rest)
    show (flmRow m t rest
      (if st.2.2 < (if j = 0 then 0 else m (j - 1)) + 1 then _ else st) _).1 = st
    rw [if_neg (by omega)]
    exact ih _ _ (fun j' hj' => hb j' (List.mem_cons_of_mem j hj'))

/-- Appending column lists composes the row fold. -/
theorem flmRow_append (m : Nat → Nat) (t : Nat) :
    ∀ (L1 L2 : List Nat) (st : Nat × Nat × Nat) (nj : Nat → Nat),
      flmRow m t (L1 ++ L2) st nj =
        flmRow m t L2 (flmRow m t L1 st nj).1 (flmRow m t L1 st nj).2 := by
  intro L1
  induction L1 with
  | nil => intro L2 st nj; rfl
  | cons j rest ih =>
    intro L2 st nj
    rw [List.cons_append]
    show flmRow m t (rest ++ L2) _ _ = _
    rw [ih]
    rfl

theorem selfRun_succ_mem {a : Str} {r : Nat}
    (h : (r + 1) ∈ b2j a (a.getD (r + 1) ' ')) :
    selfRun a (r + 1) = selfRun a r + 1 := by
  show (if (r + 1) ∈ b2j a (a.getD (r + 1) ' ')
    then selfRun a r + 1 else 0) = selfRun a r + 1
  rw [if_pos h]

theorem selfRun_zero_mem {a : Str}
    (h : 0 ∈ b2j a (a.getD 0 ' ')) : selfRun a 0 = 1 := by
  show (if 0 ∈ b2j a (a.getD 0 ' ') then 1 else 0) = 1
  rw [if_pos h]

theorem selfRun_le (a : Str) : ∀ t, selfRun a t ≤ t + 1 := by
  intro t
  induction t with
  | zero =>
    show (if 0 ∈ b2j a (a.getD 0 ' ') then 1 else 0) ≤ 1
    split <;> omega
  | succ r ih =>
    show (if (r + 1) ∈ b2j a (a.getD (r + 1) ' ')
      then selfRun a r + 1 else 0) ≤ r + 2
    split <;> omega

/-- The dynamic program of `find_longest_match` on a self-match keeps a
diagonal best block: starting from a diagonal state whose size dominates
all earlier diagonal runs, with a map bounded by the diagonal runs, the
final state is diagonal, fits in the string, and dominates every run. -/
theorem flmRows_diag (a : Str) :
    ∀ (cnt t : Nat) (st : Nat × Nat × Nat) (m : Nat → Nat),
      t + cnt ≤ a.length →
      st.1 = st.2.1 →
      st.1 + st.2.2 ≤ a.length →
      (∀ r, r < t → selfRun a r ≤ st.2.2) →
      (∀ j, m j ≤ selfRun a j) →
      (∀ j, m j ≤ prevRun a t) →
      (∀ r, r + 1 = t → m r = selfRun a r) →
      (flmRows a (b2j a) 0 a.length (List.range' t cnt) st m).1 =
        (flmRows a (b2j a) 0 a.length (List.range' t cnt) st m).2.1 ∧
      (flmRows a (b2j a) 0 a.length (List.range' t cnt) st m).1 +
        (flmRows a (b2j a) 0 a.length (List.range' t cnt) st m).2.2 ≤
          a.length ∧
      (∀ r, r < t + cnt →
        selfRun a r ≤
          (flmRows a (b2j a) 0 a.length (List.range' t cnt) st m).2.2) := by
  intro cnt
  induction cnt with
  | zero =>
    intro t st m _ hd hs hdom _ _ _
    exact ⟨hd, hs, fun r hr => hdom r (by omega)⟩
  | succ cnt ih =>
    intro t st m hlen hd hs hdom hcolb hrowb hexact
    have ht : t < a.length := by omega
    rw [List.range'_succ]
    rw [show flmRows a (b2j a) 0 a.length (t :: List.range' (t + 1) cnt) st m =
      flmRows a (b2j a) 0 a.length (List.range' (t + 1) cnt)
        (flmRow m t ((b2j a (a.getD t ' ')).filter
          (fun j => decide (0 ≤ j) && decide (j < a.length))) st (fun _ => 0)).1
        (flmRow m t ((b2j a (a.getD t ' ')).filter
          (fun j => decide (0 ≤ j) && decide (j < a.length))) st (fun _ => 0)).2
      from rfl]
    rw [b2j_filter_full a (a.getD t ' ')]
    by_cases hmem : t ∈ b2j a (a.getD t ' ')
    · obtain ⟨A, B, hsplit, hA, hB⟩ := b2j_split hmem
      have hpr : selfRun a t = prevRun a t + 1 := by
        cases t with
        | zero => rw [selfRun_zero_mem hmem]; rfl
        | succ r => rw [selfRun_succ_mem hmem]; rfl
      have hcol : ∀ j ∈ b2j a (a.getD t ' '),
          ((if j = 0 then 0 else m (j - 1)) + 1) ≤ selfRun a j := by
        intro j hj
        have hjs : j ∈ b2j a (a.getD j ' ') := mem_b2j_self hj
        cases j with
        | zero =>
          rw [selfRun_zero_mem hjs]
          simp
        | succ r =>
          rw [selfRun_succ_mem hjs, if_neg (Nat.succ_ne_zero r)]
          simp only [Nat.add_sub_cancel]
          have := hcolb r
          omega
      have hrow : ∀ j ∈ b2j a (a.getD t ' '),
          ((if j = 0 then 0 else m (j - 1)) + 1) ≤ selfRun a t := by
        intro j hj
        cases j with
        | zero =>
          rw [if_pos rfl]
          omega
        | succ r =>
          rw [if_neg (Nat.succ_ne_zero r)]
          simp only [Nat.add_sub_cancel]
          have h1 := hrowb r
          omega
      have hkt : (if t = 0 then 0 else m (t - 1)) + 1 = selfRun a t := by
        cases t with
        | zero => rw [if_pos rfl, selfRun_zero_mem hmem]
        | succ r =>
          rw [if_neg (Nat.succ_ne_zero r), selfRun_succ_mem hmem]
          simp only [Nat.add_sub_cancel]
          rw [hexact r rfl]
      rw [hsplit]
      have hAn : (flmRow m t A st (fun _ => 0)).1 = st := by
        apply flmRow_st_noupdate
        intro j hj
        have hjb : j ∈ b2j a (a.getD t ' ') := by
          rw [hsplit]; exact List.mem_append_left _ hj
        exact le_trans (hcol j hjb) (hdom j (hA j hj))
      have hPdef := flmRow_append m t A (t :: B) st (fun _ => 0)
      rw [hAn] at hPdef
      rw [show ∀ (njx : Nat → Nat),
          flmRow m t (t :: B) st njx =
            flmRow m t B
              (if st.2.2 < (if t = 0 then 0 else m (t - 1)) + 1
                then (t + 1 - ((if t = 0 then 0 else m (t - 1)) + 1),
                      t + 1 - ((if t = 0 then 0 else m (t - 1)) + 1),
                      (if t = 0 then 0 else m (t - 1)) + 1)
                else st)
              (fun j' => if j' = t
                then (if t = 0 then 0 else m (t - 1)) + 1 else njx j')
        from fun njx => rfl] at hPdef
      rw [hkt] at hPdef
      have hP1 : (flmRow m t (A ++ t :: B) st (fun _ => 0)).1 =
          (if st.2.2 < selfRun a t
            then (t + 1 - selfRun a t, t + 1 - selfRun a t, selfRun a t)
            else st) := by
        rw [hPdef]
        apply flmRow_st_noupdate
        intro j hj
        have hjb : j ∈ b2j a (a.getD t ' ') := by
          rw [hsplit]
          exact List.mem_append_right _ (List.mem_cons_of_mem _ hj)
        have h1 := hrow j hjb
        by_cases himp : st.2.2 < selfRun a t
        · rw [if_pos himp]
          exact h1
        · rw [if_neg himp]
          omega
      have hQd : (flmRow m t (A ++ t :: B) st (fun _ => 0)).1.1 =
          (flmRow m t (A ++ t :: B) st (fun _ => 0)).1.2.1 := by
        rw [hP1]
        by_cases himp : st.2.2 < selfRun a t
        · rw [if_pos himp]
        · rw [if_neg himp]; exact hd
      have hQs : (flmRow m t (A ++ t :: B) st (fun _ => 0)).1.1 +
          (flmRow m t (A ++ t :: B) st (fun _ => 0)).1.2.2 ≤ a.length := by
        rw [hP1]
        by_cases himp : st.2.2 < selfRun a t
        · rw [if_pos himp]
          show t + 1 - selfRun a t + selfRun a t ≤ a.length
          have := selfRun_le a t
          omega
        · rw [if_neg himp]; exact hs
      have hQdom : ∀ r, r < t + 1 →
          selfRun a r ≤ (flmRow m t (A ++ t :: B) st (fun _ => 0)).1.2.2 := by
        intro r hr
        rw [hP1]
        by_cases himp : st.2.2 < selfRun a t
        · rw [if_pos himp]
          show selfRun a r ≤ selfRun a t
          rcases Nat.lt_succ_iff_lt_or_eq.mp hr with h | h
          · exact le_trans (hdom r h) (le_of_lt himp)
          · subst h; exact le_refl _
        · rw [if_neg himp]
          rcases Nat.lt_succ_iff_lt_or_eq.mp hr with h | h
          · exact hdom r h
          · subst h; omega
      have hQcol : ∀ j,
          (flmRow m t (A ++ t :: B) st (fun _ => 0)).2 j ≤ selfRun a j := by
        intro j
        by_cases hjm : j ∈ A ++ t :: B
        · rw [flmRow_map_mem m t _ _ _ j hjm]
          exact hcol j (by rw [hsplit]; exact hjm)
        · rw [flmRow_map_not_mem m t _ _ _ j hjm]
          exact Nat.zero_le _
      have hQrow : ∀ j,
          (flmRow m t (A ++ t :: B) st (fun _ => 0)).2 j ≤
            prevRun a (t + 1) := by
        intro j
        show (flmRow m t (A ++ t :: B) st (fun _ => 0)).2 j ≤ selfRun a t
        by_cases hjm : j ∈ A ++ t :: B
        · rw [flmRow_map_mem m t _ _ _ j hjm]
          exact hrow j (by rw [hsplit]; exact hjm)
        · rw [flmRow_map_not_mem m t _ _ _ j hjm]
          exact Nat.zero_le _
      have hQex : ∀ r, r + 1 = t + 1 →
          (flmRow m t (A ++ t :: B) st (fun _ => 0)).2 r = selfRun a r := by
        intro r hr
        have hrt : r = t := by omega
        subst hrt
        rw [flmRow_map_mem m r _ _ _ r
          (List.mem_append_right _ (List.mem_cons_self _ _))]
        exact hkt
      obtain ⟨g1, g2, g3⟩ := ih (t + 1)
        (flmRow m t (A ++ t :: B) st (fun _ => 0)).1
        (flmRow m t (A ++ t :: B) st (fun _ => 0)).2
        (by omega) hQd hQs hQdom hQcol hQrow hQex
      exact ⟨g1, g2, fun r hr => g3 r (by omega)⟩
    · have hb : b2j a (a.getD t ' ') = [] := by
        by_contra hne
        exact hmem (b2j_row_self ht hne)
      rw [hb]
      have h0 : selfRun a t = 0 := selfRun_zero hmem
      obtain ⟨g1, g2, g3⟩ := ih (t + 1) st (fun _ => 0) (by omega) hd hs
        (fun r hr => by
          rcases Nat.lt_succ_iff_lt_or_eq.mp hr with h | h
          · exact hdom r h
          · subst h; rw [h0]; exact Nat.zero_le _)
        (fun j => Nat.zero_le _)
        (fun j => Nat.zero_le _)
        (fun r hr => by
          have hrt : r = t := by omega
          subst hrt
          exact h0.symm)
      exact ⟨g1, g2, fun r hr => g3 r (by omega)⟩

/-- On a self-match over the full ranges, `find_longest_match` returns
the whole string as one block. -/
theorem flm_self (a : Str) :
    find_longest_match a a (b2j a) 0 a.length 0 a.length =
      (0, 0, a.length) := by
  obtain ⟨hd, hs, _⟩ := flmRows_diag a a.length 0 (0, 0, 0) (fun _ => 0)
    (by omega) rfl (Nat.zero_le _)
    (fun r hr => absurd hr (Nat.not_lt_zero r))
    (fun j => Nat.zero_le _)
    (fun j => Nat.zero_le _)
    (fun r hr => absurd hr (Nat.succ_ne_zero r))
  set S := flmRows a (b2j a) 0 a.length (List.range' 0 a.length)
    (0, 0, 0) (fun _ => 0) with hSdef
  have e1 : find_longest_match a a (b2j a) 0 a.length 0 a.length =
      extRight a a a.length a.length
        (extLeft a a 0 0 S.1 S.1 S.2.1 S.2.2).1
        (extLeft a a 0 0 S.1 S.1 S.2.1 S.2.2).2.1 a.length
        (extLeft a a 0 0 S.1 S.1 S.2.1 S.2.2).2.2 := by
    rw [hSdef]
    rfl
  have e2 : extLeft a a 0 0 S.1 S.1 S.2.1 S.2.2 = (0, 0, S.2.2 + S.1) := by
    rw [← hd]
    exact extLeft_diag a S.1 S.1 S.2.2 (le_refl _)
  rw [e1, e2]
  show extRight a a a.length a.length 0 0 a.length (S.2.2 + S.1) =
    (0, 0, a.length)
  exact extRight_diag a a.length (S.2.2 + S.1) (by omega) (by omega)

/-- Unfolding equation for one step of the `get_matching_blocks`
recursion sum. -/
theorem matchesSum_succ (a b : Str) (f : Char → List Nat)
    (fuel alo ahi blo bhi : Nat) :
    matchesSum a b f (fuel + 1) alo ahi blo bhi =
      (if (find_longest_match a b f alo ahi blo bhi).2.2 = 0 then 0
       else (find_longest_match a b f alo ahi blo bhi).2.2 +
        (if alo < (find_longest_match a b f alo ahi blo bhi).1 ∧
            blo < (find_longest_match a b f alo ahi blo bhi).2.1
         then matchesSum a b f fuel alo
            (find_longest_match a b f alo ahi blo bhi).1
            blo (find_longest_match a b f alo ahi blo bhi).2.1 else 0) +
        (if (find_longest_match a b f alo ahi blo bhi).1 +
              (find_longest_match a b f alo ahi blo bhi).2.2 < ahi ∧
            (find_longest_match a b f alo ahi blo bhi).2.1 +
              (find_longest_match a b f alo ahi blo bhi).2.2 < bhi
         then matchesSum a b f fuel
            ((find_longest_match a b f alo ahi blo bhi).1 +
              (find_longest_match a b f alo ahi blo bhi).2.2) ahi
            ((find_longest_match a b f alo ahi blo bhi).2.1 +
              (find_longest_match a b f alo ahi blo bhi).2.2) bhi
         else 0)) := rfl

/-- On a self-match the matched total is the whole length. -/
theorem matchesSum_self (a : Str) (h : a ≠ []) :
    matchesSum a a (b2j a) a.length 0 a.length 0 a.length = a.length := by
  have hn : a.length ≠ 0 := fun hc => h (List.length_eq_zero.mp hc)
  cases hL : a.length with
  | zero => exact absurd hL hn
  | succ n =>
    have hflm : find_longest_match a a (b2j a) 0 (n + 1) 0 (n + 1) =
        (0, 0, n + 1) := by
      rw [← hL]
      exact flm_self a
    rw [matchesSum_succ, hflm]
    simp

/-- On a non-empty self-match the ratio is exactly one. -/
theorem ratioOf_self (a : Str) (h : a ≠ []) : ratioOf a a = 1 := by
  have hn : a.length ≠ 0 := fun hc => h (List.length_eq_zero.mp hc)
  unfold ratioOf
  rw [if_neg (by omega)]
  rw [matchesSum_self a h]
  have hq : (a.length : ℚ) ≠ 0 := Nat.cast_ne_zero.mpr hn
  field_simp
  ring

/-- The `similarity` function is one on any input whose normalization is
non-empty. -/
theorem similarity_self (a : Str) (h : _norm a ≠ []) :
    similarity a a = 1 := by
  show (if _norm a = [] ∨ _norm a = [] then (0 : ℚ)
    else ratioOf (_norm a) (_norm a)) = 1
  rw [if_neg (by simp [h])]
  exact ratioOf_self (_norm a) h

/-- The `similarity` function returns zero whenever either argument
normalizes to the empty string. -/
theorem similarity_empty (a b : Str)
    (h : _norm a = [] ∨ _norm b = []) : similarity a b = 0 := by
  show (if _norm a = [] ∨ _norm b = [] then (0 : ℚ)
    else ratioOf (_norm a) (_norm b)) = 0
  rw [if_pos h]

/-- C7: the reflexivity and empty-input parts of the claim hold — for
every string whose normalization is non-empty, `similarity a a = 1`, and
whenever either argument's normalization is empty, `similarity a b = 0`;
the symmetry part of the claim is refuted separately (see the
counterexample), so this is the amended claim. -/
theorem similarity_self_and_empty :
    (∀ a : Str, _norm a ≠ [] → similarity a a = 1) ∧
    (∀ a b : Str, _norm a = [] ∨ _norm b = [] → similarity a b = 0) :=
  ⟨similarity_self, similarity_empty⟩

/-- C7 witness: the amended claim applied at concrete inputs. -/
theorem similarity_self_and_empty_witness :
    (_norm "anna".data ≠ [] ∧ similarity "anna".data "anna".data = 1) ∧
    ((_norm "".data = [] ∨ _norm "x".data = []) ∧
      similarity "".data "x".data = 0) :=
  ⟨⟨by decide, similarity_self_and_empty.1 "anna".data (by decide)⟩,
   ⟨by decide, similarity_self_and_empty.2 "".data "x".data (by decide)⟩⟩

/-- C7 counterexample: `similarity` is not symmetric.  With `a = "ab"`
and `b = "bacb"`, `SequenceMatcher(None, "ab", "bacb").ratio()` finds
matched total 2 (giving 2/3) but the swapped call finds matched total 1
(giving 1/3), because `find_longest_match` indexes `b2j` by the second
argument and prefers earliest-starting blocks asymmetrically. -/
theorem similarity_not_symmetric :
    similarity "ab".data "bacb".data = 2 / 3 ∧
    similarity "bacb".data "ab".data = 1 / 3 ∧
    similarity "ab".data "bacb".data ≠ similarity "bacb".data "ab".data := by
  refine ⟨by decide, by decide, by decide⟩

end Mcml
